import Mathlib

/-!
# Verification of the terminal 3-D cube renderer (`fog-test.cpp`)

Shallow embedding of `Engine3D`.  The C++ `float` type is embedded as an
arbitrary linearly ordered field `α` (exact arithmetic): the definitions are
executable at `α = ℚ` and the theorems about trigonometry are stated at
`α = ℝ`.  The C++ `int` type is embedded as `ℤ`.  Where a result depends on the
rounding of `float`, the namespace `F32` embeds the same source lines in IEEE 754
binary32 over `ℚ`.
-/

namespace Engine3D

/-! ## Data model -/

/-- Embedding of `struct Vector3D { float x, y, z; }`. -/
structure Vector3D (α : Type) where
  x : α
  y : α
  z : α
deriving DecidableEq, Repr

/-- Embedding of `struct Point2D { int x, y; char c; float depth; }`. -/
structure Point2D (α : Type) where
  x : Int
  y : Int
  c : Char
  depth : α
deriving DecidableEq, Repr

/-- The constructor defaults of `Point2D(int x = 0, int y = 0, char c = '#', float d = 0)`,
for the two-argument call `Point2D(x, y)`. -/
def Point2D.mk2 {α : Type} [Zero α] (x y : Int) : Point2D α :=
  { x := x, y := y, c := '#', depth := 0 }

section Field

variable {α : Type} [LinearOrderedField α]

/-- The member initialiser `Vector3D camera{0, 0, -10}`. -/
def camera : Vector3D α := { x := 0, y := 0, z := -10 }

/-- Embedding of `getDepth`: `std::abs(p.z - camera.z)`. -/
def getDepth (p : Vector3D α) : α :=
  |p.z - (camera : Vector3D α).z|

/-- Embedding of `getLineChar` in exact arithmetic: the intensity `1 - depth / maxDist` is
compared with the four thresholds in source order.  The binary32 reading, which differs
within rounding distance of a threshold, is `F32.getLineChar`. -/
def getLineChar (depth : α) : Char :=
  let maxDist : α := 30
  let intensity : α := 1 - depth / maxDist
  if intensity < 2 / 10 then '.'
  else if intensity < 4 / 10 then '+'
  else if intensity < 6 / 10 then '*'
  else if intensity < 8 / 10 then '#'
  else '='

/-- Embedding of `rotatePoint`.  The library functions `std::sin` and `std::cos` are
parameters; the body follows the source statement by statement (the copy `r` of `p` is
updated in place, first with the angle `ay`, then with the angle `ax`). -/
def rotatePoint (sin cos : α → α) (p : Vector3D α) (ax ay : α) : Vector3D α :=
  let sx := sin ax
  let cx := cos ax
  let sy := sin ay
  let cy := cos ay
  let r := p
  let tempX := r.x * cy + r.z * sy
  let r := { r with z := -r.x * sy + r.z * cy }
  let r := { r with x := tempX }
  let tempY := r.y * cx - r.z * sx
  let r := { r with z := r.y * sx + r.z * cx }
  let r := { r with y := tempY }
  r

/-! ## Specification-side vocabulary for rotations -/

/-- Rotation about the X-axis by the angle whose sine and cosine are `s` and `c`. -/
def rotateAboutX (s c : α) (p : Vector3D α) : Vector3D α :=
  { x := p.x, y := p.y * c - p.z * s, z := p.y * s + p.z * c }

/-- Rotation about the Y-axis by the angle whose sine and cosine are `s` and `c`. -/
def rotateAboutY (s c : α) (p : Vector3D α) : Vector3D α :=
  { x := p.x * c + p.z * s, y := p.y, z := -p.x * s + p.z * c }

/-- Squared Euclidean norm of a point. -/
def normSq (p : Vector3D α) : α :=
  p.x ^ 2 + p.y ^ 2 + p.z ^ 2

/-! ## Specification-side vocabulary for the shader -/

/-- The threshold table of the specification, as a function of the intensity. -/
def glyphOfIntensity (intensity : α) : Char :=
  if intensity < 2 / 10 then '.'
  else if intensity < 4 / 10 then '+'
  else if intensity < 6 / 10 then '*'
  else if intensity < 8 / 10 then '#'
  else '='

/-- Density rank of a glyph: `'.' < '+' < '*' < '#' < '='`. -/
def glyphRank (c : Char) : Nat :=
  if c = '.' then 0
  else if c = '+' then 1
  else if c = '*' then 2
  else if c = '#' then 3
  else 4

end Field

section Projection

variable {α : Type} [LinearOrderedField α] [FloorRing α]

/-- Embedding of `static_cast<int>(v)` for a `float` value `v`: truncation toward zero.
(The cast is only defined in C++ when the truncated value fits in `int`; here the result
is an unbounded integer, which fails the bounds test of `project` whenever it is out of
the `int` range.) -/
def toInt (v : α) : Int :=
  if 0 ≤ v then ⌊v⌋ else ⌈v⌉

/-- The value of `VIEW_DISTANCE / (p.z + VIEW_DISTANCE)`, the local `scale` of `project`.
At `p.z = -100` the source divides by zero; here the quotient is `0` there. -/
def projectScale (p : Vector3D α) : α :=
  let VIEW_DISTANCE : α := 100
  VIEW_DISTANCE / (p.z + VIEW_DISTANCE)

/-- The local `x` of `project` in exact arithmetic:
`static_cast<int>(p.x * scale * 2 + width / 2)`, where `width / 2` is the integer division
of C++ converted to `float`.  The binary32 reading, in which the sum is rounded before the
cast, is `F32.screenX`. -/
def screenX (width : Int) (p : Vector3D α) : Int :=
  toInt (p.x * projectScale p * 2 + ((Int.tdiv width 2 : Int) : α))

/-- The local `y` of `project` in exact arithmetic:
`static_cast<int>(p.y * scale + height / 2)`.  The binary32 reading is `F32.screenY`. -/
def screenY (height : Int) (p : Vector3D α) : Int :=
  toInt (p.y * projectScale p + ((Int.tdiv height 2 : Int) : α))

/-- Embedding of `project`, with the members `width` and `height` as arguments. -/
def project (width height : Int) (p : Vector3D α) : Point2D α :=
  let x := screenX width p
  let y := screenY height p
  let depth := getDepth p
  if x ≥ 0 ∧ x < width ∧ y ≥ 0 ∧ y < height then
    { x := x, y := y, c := getLineChar depth, depth := depth }
  else
    Point2D.mk2 (-1) (-1)

/-- The first loop of `render`: every point is rotated and projected, and the projection is
appended to `projectedPoints` when its `x` is not `-1`. -/
def projectLoop (sin cos : α → α) (width height : Int) (points : List (Vector3D α))
    (angleX angleY : α) : List (Point2D α) :=
  points.foldl
    (fun projectedPoints point =>
      let rotated := rotatePoint sin cos point angleX angleY
      let projected := project width height rotated
      if projected.x ≠ -1 then projectedPoints ++ [projected] else projectedPoints)
    []

end Projection

section Compositing

variable {α : Type} [LinearOrderedField α]

/-- The comparator of the `std::sort` call in `render`: `a.depth > b.depth`. -/
def depthGreater (a b : Point2D α) : Bool :=
  decide (a.depth > b.depth)

/-- Insertion of `a` into a list ordered by `depthGreater`: `a` goes before the first
element that it must precede. -/
def insertByDepth (a : Point2D α) : List (Point2D α) → List (Point2D α)
  | [] => [a]
  | b :: l => if depthGreater a b then a :: b :: l else b :: insertByDepth a l

/-- Model of `std::sort(begin, end, depthGreater)`.  The C++ standard fixes only that the
result is a permutation of the input ordered by the comparator (the order of elements of
equal depth is unspecified); this is one such algorithm, insertion sort. -/
def stdSort : List (Point2D α) → List (Point2D α)
  | [] => []
  | a :: l => insertByDepth a (stdSort l)

/-- The curses window `stdscr`: its size, the character held by each cell, addressed as
`cell row column`, and the writes made since the last `clear()`, oldest first, each as
`(row, column, character)`. -/
structure Screen where
  width : Int
  height : Int
  cell : Int → Int → Char
  writes : List (Int × Int × Char)

/-- Model of the curses call `clear()`: every cell is blank and nothing has been written. -/
def clear (width height : Int) : Screen :=
  { width := width, height := height, cell := fun _ _ => ' ', writes := [] }

/-- Model of the curses call `mvaddch(y, x, c)`: the character is stored at row `y`,
column `x`, and the write is recorded; a position outside the window is rejected and
nothing is written. -/
def mvaddch (s : Screen) (y x : Int) (c : Char) : Screen :=
  if 0 ≤ x ∧ x < s.width ∧ 0 ≤ y ∧ y < s.height then
    { s with
      cell := fun row col => if row = y ∧ col = x then c else s.cell row col
      writes := s.writes ++ [(y, x, c)] }
  else s

/-- The second loop of `render`: `mvaddch(p.y, p.x, p.c)` for every point, in list order. -/
def drawLoop (s : Screen) (projectedPoints : List (Point2D α)) : Screen :=
  projectedPoints.foldl (fun s p => mvaddch s p.y p.x p.c) s

/-- The compositing step of `render`: the sort followed by the draw loop, on a cleared
window. -/
def composite (width height : Int) (projectedPoints : List (Point2D α)) : Screen :=
  drawLoop (clear width height) (stdSort projectedPoints)

end Compositing

section Frame

variable {α : Type} [LinearOrderedField α] [FloorRing α]

/-- The sequence of points handed to `mvaddch` by `render`, in drawing order. -/
def renderWrites (sin cos : α → α) (width height : Int) (points : List (Vector3D α))
    (angleX angleY : α) : List (Point2D α) :=
  stdSort (projectLoop sin cos width height points angleX angleY)

/-- Embedding of `render`: the window contents presented by `refresh()`. -/
def render (sin cos : α → α) (width height : Int) (points : List (Vector3D α))
    (angleX angleY : α) : Screen :=
  composite width height (projectLoop sin cos width height points angleX angleY)

end Frame

section Generation

variable {α : Type} [LinearOrderedField α]

/-- The six points pushed by one iteration of the inner loop of the constructor. -/
def facePoints (size x y : α) : List (Vector3D α) :=
  [⟨x, y, size⟩, ⟨x, y, -size⟩, ⟨x, size, y⟩, ⟨x, -size, y⟩, ⟨size, x, y⟩, ⟨-size, x, y⟩]

/-- The inner loop `for (float y = -size; y <= size; y += step)` of the constructor, from
the current value `y`, with the vector `points` as accumulator.  The result is `none`
when the fuel runs out before the loop condition fails. -/
def innerLoop (size step x : α) : Nat → α → List (Vector3D α) → Option (List (Vector3D α))
  | 0, _, _ => none
  | fuel + 1, y, points =>
    if y ≤ size then
      innerLoop size step x fuel (y + step) (points ++ facePoints size x y)
    else some points

/-- The outer loop `for (float x = -size; x <= size; x += step)` of the constructor. -/
def outerLoop (size step : α) : Nat → α → List (Vector3D α) → Option (List (Vector3D α))
  | 0, _, _ => none
  | fuel + 1, x, points =>
    if x ≤ size then
      match innerLoop size step x fuel (-size) points with
      | none => none
      | some points => outerLoop size step fuel (x + step) points
    else some points

/-- The geometry built by the constructor `Engine3D()` for the given `size` and `step`
(the source uses `size = 5.0f` and `step = 0.3f`). -/
def generatePoints (size step : α) (fuel : Nat) : Option (List (Vector3D α)) :=
  outerLoop size step fuel (-size) []

/-- A point lies on the surface of the cube `[-size, size]^3`. -/
def OnCubeSurface (size : α) (p : Vector3D α) : Prop :=
  (-size ≤ p.x ∧ p.x ≤ size) ∧ (-size ≤ p.y ∧ p.y ≤ size) ∧ (-size ≤ p.z ∧ p.z ≤ size) ∧
  (p.x = size ∨ p.x = -size ∨ p.y = size ∨ p.y = -size ∨ p.z = size ∨ p.z = -size)

instance (size : α) (p : Vector3D α) : Decidable (OnCubeSurface size p) := by
  unfold OnCubeSurface
  infer_instance

end Generation

section Run

variable {α : Type} [LinearOrderedField α] [FloorRing α]

/-- One call of `render` made by `run`: the angles it was called with and the window
contents it presented. -/
structure Frame (α : Type) where
  angleX : α
  angleY : α
  screen : Screen

/-- The members `angleX` and `angleY` of the engine, the frames rendered so far, and
whether the loop of `run` has been left by `break`. -/
structure RunState (α : Type) where
  angleX : α
  angleY : α
  frames : List (Frame α)
  exited : Bool

/-- The state in which `run` is entered: the member initialisers `angleX = 0, angleY = 0`,
nothing rendered, loop not yet left. -/
def RunState.init : RunState α :=
  { angleX := 0, angleY := 0, frames := [], exited := false }

/-- The character code of `'q'`, the value that `getch()` is compared with. -/
def keyQ : Int := Int.ofNat 'q'.toNat

/-- Embedding of `run` over the sequence of values returned by the successive `getch()`
calls (`-1` when no key is pending).  Each iteration polls one key: on `'q'` the loop is
left by `break`; otherwise the angles are advanced by `0.03` and `0.02` and `render` is
called.  When the key sequence is used up the loop is still running. -/
def run (sin cos : α → α) (width height : Int) (points : List (Vector3D α)) :
    List Int → RunState α → RunState α
  | [], st => st
  | key :: keys, st =>
    if key = keyQ then { st with exited := true }
    else
      let angleX := st.angleX + 3 / 100
      let angleY := st.angleY + 2 / 100
      let screen := render sin cos width height points angleX angleY
      run sin cos width height points keys
        { st with
          angleX := angleX, angleY := angleY,
          frames := st.frames ++ [{ angleX := angleX, angleY := angleY, screen := screen }] }

end Run

/-! ## Binary32 arithmetic

The definitions above read `float` as exact arithmetic.  The definitions of this section
read it as IEEE 754 binary32: every arithmetic operation and every decimal literal is
rounded to the nearest binary32 value, ties to even, and a `float` value is a rational
number `q` with `F32.fl q = q`.  They embed the parts of the source whose result changes
with the rounding: `getLineChar` and the screen coordinates of `project`. -/

namespace F32

/-- The integer nearest to `q`, the even one of the two when `q` lies halfway. -/
def roundEven (q : ℚ) : Int :=
  if q - ⌊q⌋ < 1 / 2 then ⌊q⌋
  else if 1 / 2 < q - ⌊q⌋ then ⌊q⌋ + 1
  else if ⌊q⌋ % 2 = 0 then ⌊q⌋
  else ⌊q⌋ + 1

/-- The binary exponent of `q` in binary32: `⌊log₂ |q|⌋`, and `-126` for zero and the
subnormal range. -/
def exponent (q : ℚ) : Int :=
  if q = 0 then -126 else max (Int.log 2 |q|) (-126)

/-- The spacing of the binary32 values around `q` (24 significant bits). -/
def ulp (q : ℚ) : ℚ :=
  2 ^ (exponent q - 23)

/-- Rounding of `q` to binary32, to nearest and ties to even, without the overflow to
infinity (see `op`). -/
def fl (q : ℚ) : ℚ :=
  roundEven (q / ulp q) * ulp q

/-- The result of one binary32 operation whose exact result is `q`: the rounded value, or
`none` when it overflows to an infinity. -/
def op (q : ℚ) : Option ℚ :=
  if |fl q| < 2 ^ 128 then some (fl q) else none

/-- Embedding of `getLineChar` in binary32.  The literals `30.0f` and `1.0f` are exact;
`0.2f`, `0.4f`, `0.6f`, `0.8f` are the rounded decimals.  For a finite `depth` neither
the division nor the subtraction can overflow. -/
def getLineChar (depth : ℚ) : Char :=
  let maxDist : ℚ := 30
  let intensity : ℚ := fl (1 - fl (depth / maxDist))
  if intensity < fl (2 / 10) then '.'
  else if intensity < fl (4 / 10) then '+'
  else if intensity < fl (6 / 10) then '*'
  else if intensity < fl (8 / 10) then '#'
  else '='

/-- The local `scale` of `project` in binary32: `VIEW_DISTANCE / (p.z + VIEW_DISTANCE)`.
The result is `none` when the denominator is zero or an operation overflows, where the
source obtains an infinity. -/
def projectScale (p : Vector3D ℚ) : Option ℚ := do
  let VIEW_DISTANCE : ℚ := 100
  let den ← op (p.z + VIEW_DISTANCE)
  if den = 0 then none else op (VIEW_DISTANCE / den)

/-- The binary32 value of `p.x * scale * 2 + width / 2` in `project`; the integer
`width / 2` is converted to `float`. -/
def coordX (width : Int) (p : Vector3D ℚ) : Option ℚ := do
  let scale ← projectScale p
  let t ← op (p.x * scale)
  let t ← op (t * 2)
  op (t + fl ((Int.tdiv width 2 : Int) : ℚ))

/-- The binary32 value of `p.y * scale + height / 2` in `project`. -/
def coordY (height : Int) (p : Vector3D ℚ) : Option ℚ := do
  let scale ← projectScale p
  let t ← op (p.y * scale)
  op (t + fl ((Int.tdiv height 2 : Int) : ℚ))

/-- Embedding of `static_cast<int>(v)` for a binary32 value: truncation toward zero,
defined when the truncated value fits in a 32-bit `int`. -/
def toInt (v : ℚ) : Option Int :=
  if -2 ^ 31 ≤ Engine3D.toInt v ∧ Engine3D.toInt v < 2 ^ 31 then some (Engine3D.toInt v)
  else none

/-- The local `x` of `project` in binary32. -/
def screenX (width : Int) (p : Vector3D ℚ) : Option Int :=
  (coordX width p).bind toInt

/-- The local `y` of `project` in binary32. -/
def screenY (height : Int) (p : Vector3D ℚ) : Option Int :=
  (coordY height p).bind toInt

/-- Embedding of `getDepth` in binary32: `std::abs(p.z - camera.z)`, the subtraction
rounded. -/
def getDepth (p : Vector3D ℚ) : Option ℚ :=
  (op (p.z - (camera : Vector3D ℚ).z)).map (fun d => |d|)

/-- Embedding of `project` in binary32, with the members `width` and `height` as
arguments; `none` where the source has no defined result (a cast of an infinity, a
not-a-number or a value outside the range of `int`). -/
def project (width height : Int) (p : Vector3D ℚ) : Option (Point2D ℚ) := do
  let x ← screenX width p
  let y ← screenY height p
  let depth ← getDepth p
  if x ≥ 0 ∧ x < width ∧ y ≥ 0 ∧ y < height then
    some { x := x, y := y, c := getLineChar depth, depth := depth }
  else
    some (Point2D.mk2 (-1) (-1))

end F32

/-! ## Theorems -/

section ShaderTheorems

variable {α : Type} [LinearOrderedField α]

/-- Rank of the glyph returned by `getLineChar`, by depth band boundaries. -/
theorem glyphRank_getLineChar_le (d1 d2 : α) (h : d1 ≤ d2) :
    glyphRank (getLineChar d2) ≤ glyphRank (getLineChar d1) := by
  have hi : 1 - d2 / 30 ≤ 1 - d1 / 30 := by
    have : d1 / 30 ≤ d2 / 30 := div_le_div_of_nonneg_right h (by norm_num)
    linarith
  simp only [getLineChar]
  split_ifs <;> first
    | (simp only [glyphRank]; decide)
    | (exfalso; linarith)

/-- Claim C3: shading is monotone in depth. For depths `d1 < d2` whose intensities lie in
`[0, 1]`, the glyph of `d1` ranks at least as dense as the glyph of `d2`. -/
theorem shading_monotone (d1 d2 : α) (hlt : d1 < d2)
    (_h1 : 0 ≤ 1 - d1 / 30 ∧ 1 - d1 / 30 ≤ 1) (_h2 : 0 ≤ 1 - d2 / 30 ∧ 1 - d2 / 30 ≤ 1) :
    glyphRank (getLineChar d1) ≥ glyphRank (getLineChar d2) :=
  glyphRank_getLineChar_le d1 d2 hlt.le

/-- Witness for C3 at depths `5 < 20`: ranks `4` (glyph `'='`) and `1` (glyph `'+'`). -/
theorem shading_monotone_witness :
    (5 : ℚ) < 20 ∧ glyphRank (getLineChar (5 : ℚ)) ≥ glyphRank (getLineChar (20 : ℚ)) :=
  ⟨by norm_num, shading_monotone (5 : ℚ) 20 (by norm_num) (by norm_num) (by norm_num)⟩

end ShaderTheorems

section RotationTheorems

open Real

/-- Componentwise equality of points. -/
theorem Vector3D.ext_iff3 {α : Type} (p q : Vector3D α) :
    p = q ↔ p.x = q.x ∧ p.y = q.y ∧ p.z = q.z := by
  cases p; cases q; simp

/-- Counterexample for C6: at `p = (0, 1, 0)` and `ax = ay = π / 2` the code returns
`(0, 0, 1)`, whereas rotating about X first and about Y second gives `(1, 0, 0)`. -/
theorem rotatePoint_not_x_then_y :
    rotatePoint Real.sin Real.cos (⟨0, 1, 0⟩ : Vector3D ℝ) (π / 2) (π / 2) = ⟨0, 0, 1⟩ ∧
    rotateAboutY (Real.sin (π / 2)) (Real.cos (π / 2))
      (rotateAboutX (Real.sin (π / 2)) (Real.cos (π / 2)) (⟨0, 1, 0⟩ : Vector3D ℝ))
      = ⟨1, 0, 0⟩ ∧
    rotatePoint Real.sin Real.cos (⟨0, 1, 0⟩ : Vector3D ℝ) (π / 2) (π / 2) ≠
      rotateAboutY (Real.sin (π / 2)) (Real.cos (π / 2))
        (rotateAboutX (Real.sin (π / 2)) (Real.cos (π / 2)) (⟨0, 1, 0⟩ : Vector3D ℝ)) := by
  refine ⟨?_, ?_, ?_⟩ <;> simp [rotatePoint, rotateAboutX, rotateAboutY]

/-- Claim C6 (amended): `rotatePoint p ax ay` is `p` rotated first about the Y-axis by `ay`
and then about the X-axis by `ax`. -/
theorem rotatePoint_y_then_x (p : Vector3D ℝ) (ax ay : ℝ) :
    rotatePoint Real.sin Real.cos p ax ay =
      rotateAboutX (Real.sin ax) (Real.cos ax)
        (rotateAboutY (Real.sin ay) (Real.cos ay) p) := by
  simp [rotatePoint, rotateAboutX, rotateAboutY]

/-- Counterexample for C7: rotating `(1, 0, 0)` by `(π / 2, π / 2)` and then by
`(2π − π / 2, 2π − π / 2)` yields `(0, 0, -1)`, not the original point. -/
theorem rotatePoint_round_trip_fails :
    rotatePoint Real.sin Real.cos
      (rotatePoint Real.sin Real.cos (⟨1, 0, 0⟩ : Vector3D ℝ) (π / 2) (π / 2))
      (2 * π - π / 2) (2 * π - π / 2) = ⟨0, 0, -1⟩ ∧
    rotatePoint Real.sin Real.cos
      (rotatePoint Real.sin Real.cos (⟨1, 0, 0⟩ : Vector3D ℝ) (π / 2) (π / 2))
      (2 * π - π / 2) (2 * π - π / 2) ≠ ⟨1, 0, 0⟩ := by
  refine ⟨?_, ?_⟩ <;>
    simp [rotatePoint, Real.sin_two_pi_sub, Real.cos_two_pi_sub]

/-- Claim C7 (amended): the rotation is undone by applying the two inverse single-axis
rotations in the reverse order (X by `2π − ax` first, then Y by `2π − ay`), and the
one-call round trip holds for single-axis rotations. -/
theorem rotatePoint_round_trip (p : Vector3D ℝ) (ax ay : ℝ) :
    rotatePoint Real.sin Real.cos
      (rotatePoint Real.sin Real.cos (rotatePoint Real.sin Real.cos p ax ay) (2 * π - ax) 0)
      0 (2 * π - ay) = p ∧
    rotatePoint Real.sin Real.cos (rotatePoint Real.sin Real.cos p ax 0)
      (2 * π - ax) (2 * π - 0) = p ∧
    rotatePoint Real.sin Real.cos (rotatePoint Real.sin Real.cos p 0 ay)
      (2 * π - 0) (2 * π - ay) = p := by
  have hx := Real.sin_sq_add_cos_sq ax
  have hy := Real.sin_sq_add_cos_sq ay
  obtain ⟨x, y, z⟩ := p
  refine ⟨?_, ?_, ?_⟩
  · simp only [rotatePoint, Real.sin_two_pi_sub, Real.cos_two_pi_sub, Real.sin_zero,
      Real.cos_zero, Vector3D.ext_iff3]
    refine ⟨?_, ?_, ?_⟩
    · linear_combination x * hy + (-(-x * Real.sin ay + z * Real.cos ay) * Real.sin ay) * hx
    · linear_combination y * hx
    · linear_combination z * hy + ((-x * Real.sin ay + z * Real.cos ay) * Real.cos ay) * hx
  · simp only [rotatePoint, Real.sin_two_pi_sub, Real.cos_two_pi_sub, Real.sin_zero,
      Real.cos_zero, Vector3D.ext_iff3]
    refine ⟨by ring, ?_, ?_⟩
    · linear_combination y * hx
    · linear_combination z * hx
  · simp only [rotatePoint, Real.sin_two_pi_sub, Real.cos_two_pi_sub, Real.sin_zero,
      Real.cos_zero, Vector3D.ext_iff3]
    refine ⟨?_, by ring, ?_⟩
    · linear_combination x * hy
    · linear_combination z * hy

/-- Claim C8: `rotatePoint` preserves the squared Euclidean norm, and the rotation by
the angles `(0, 0)` is the identity. -/
theorem rotatePoint_rigid (p : Vector3D ℝ) (ax ay : ℝ) :
    normSq (rotatePoint Real.sin Real.cos p ax ay) = normSq p ∧
    rotatePoint Real.sin Real.cos p 0 0 = p := by
  have hx := Real.sin_sq_add_cos_sq ax
  have hy := Real.sin_sq_add_cos_sq ay
  obtain ⟨x, y, z⟩ := p
  constructor
  · simp only [rotatePoint, normSq]
    linear_combination
      (y ^ 2 + (-x * Real.sin ay + z * Real.cos ay) ^ 2) * hx + (x ^ 2 + z ^ 2) * hy
  · simp [rotatePoint]

end RotationTheorems


section ProjectionTheorems

variable {α : Type} [LinearOrderedField α] [FloorRing α]

/-- The value returned by `project` on the in-bounds branch. -/
theorem project_of_inBounds (width height : Int) (p : Vector3D α)
    (h : screenX width p ≥ 0 ∧ screenX width p < width ∧
      screenY height p ≥ 0 ∧ screenY height p < height) :
    project width height p =
      { x := screenX width p, y := screenY height p,
        c := getLineChar (getDepth p), depth := getDepth p } := by
  simp only [project, if_pos h]

/-- The value returned by `project` on the out-of-bounds branch. -/
theorem project_of_not_inBounds (width height : Int) (p : Vector3D α)
    (h : ¬ (screenX width p ≥ 0 ∧ screenX width p < width ∧
      screenY height p ≥ 0 ∧ screenY height p < height)) :
    project width height p = Point2D.mk2 (-1) (-1) := by
  simp only [project, if_neg h]

/-- Claim C1: `project` returns either a point with `0 ≤ x < width` and `0 ≤ y < height`
or the off-screen sentinel with `x = -1` and `y = -1`. -/
theorem project_inBounds_or_sentinel (width height : Int) (p : Vector3D α) :
    (0 ≤ (project width height p).x ∧ (project width height p).x < width ∧
      0 ≤ (project width height p).y ∧ (project width height p).y < height) ∨
    ((project width height p).x = -1 ∧ (project width height p).y = -1) := by
  by_cases h : screenX width p ≥ 0 ∧ screenX width p < width ∧
      screenY height p ≥ 0 ∧ screenY height p < height
  · left
    rw [project_of_inBounds width height p h]
    exact h
  · right
    rw [project_of_not_inBounds width height p h]
    exact ⟨rfl, rfl⟩

/-- The cast `toInt` truncates toward zero: the result is no larger in absolute value
than the argument and differs from it by less than one. -/
theorem toInt_truncates (v : α) :
    |((toInt v : Int) : α)| ≤ |v| ∧ |v - ((toInt v : Int) : α)| < 1 := by
  unfold toInt
  by_cases hv : 0 ≤ v
  · rw [if_pos hv]
    have h0 : (0 : α) ≤ ((⌊v⌋ : Int) : α) := by exact_mod_cast Int.floor_nonneg.mpr hv
    have h1 : ((⌊v⌋ : Int) : α) ≤ v := Int.floor_le v
    have h2 : v < ((⌊v⌋ : Int) : α) + 1 := Int.lt_floor_add_one v
    rw [abs_of_nonneg h0, abs_of_nonneg hv, abs_of_nonneg (by linarith)]
    constructor <;> linarith
  · rw [if_neg hv]
    have hv' : v < 0 := lt_of_not_ge hv
    have h1 : v ≤ ((⌈v⌉ : Int) : α) := Int.le_ceil v
    have h2 : ((⌈v⌉ : Int) : α) < v + 1 := Int.ceil_lt_add_one v
    have h0 : ((⌈v⌉ : Int) : α) ≤ 0 := by
      have : ⌈v⌉ ≤ 0 := Int.ceil_le.mpr (by simpa using hv'.le)
      exact_mod_cast this
    rw [abs_of_nonpos h0, abs_of_neg hv', abs_of_nonpos (by linarith)]
    constructor <;> linarith

end ProjectionTheorems

section CompositingTheorems

variable {α : Type} [LinearOrderedField α]

/-- Inserting a point yields a permutation of the list with the point added. -/
theorem insertByDepth_perm (a : Point2D α) (l : List (Point2D α)) :
    (insertByDepth a l).Perm (a :: l) := by
  induction l with
  | nil => exact List.Perm.refl _
  | cons b l ih =>
    unfold insertByDepth
    split_ifs
    · exact List.Perm.refl _
    · exact ((List.Perm.cons b ih).trans (List.Perm.swap a b l))

/-- The sort returns a permutation of its input. -/
theorem stdSort_perm (l : List (Point2D α)) : (stdSort l).Perm l := by
  induction l with
  | nil => exact List.Perm.refl _
  | cons a l ih =>
    unfold stdSort
    exact (insertByDepth_perm a (stdSort l)).trans (List.Perm.cons a ih)

/-- Insertion keeps a list ordered by non-increasing depth. -/
theorem insertByDepth_pairwise (a : Point2D α) (l : List (Point2D α))
    (h : l.Pairwise (fun p q => q.depth ≤ p.depth)) :
    (insertByDepth a l).Pairwise (fun p q => q.depth ≤ p.depth) := by
  induction l with
  | nil => simp [insertByDepth]
  | cons b l ih =>
    rw [List.pairwise_cons] at h
    unfold insertByDepth
    by_cases hab : depthGreater a b = true
    · rw [if_pos hab]
      have hlt : b.depth < a.depth := by simpa [depthGreater] using hab
      refine List.pairwise_cons.mpr ⟨?_, List.pairwise_cons.mpr h⟩
      intro q hq
      rcases List.mem_cons.mp hq with rfl | hq
      · exact hlt.le
      · exact (h.1 q hq).trans hlt.le
    · rw [if_neg hab]
      have hle : a.depth ≤ b.depth := by simpa [depthGreater] using hab
      refine List.pairwise_cons.mpr ⟨?_, ih h.2⟩
      intro q hq
      rcases List.mem_cons.mp ((insertByDepth_perm a l).subset hq) with rfl | hq
      · exact hle
      · exact h.1 q hq

/-- The sort returns a list ordered by non-increasing depth. -/
theorem stdSort_pairwise (l : List (Point2D α)) :
    (stdSort l).Pairwise (fun p q => q.depth ≤ p.depth) := by
  induction l with
  | nil => simp [stdSort]
  | cons a l ih =>
    unfold stdSort
    exact insertByDepth_pairwise a _ ih

/-- The draw loop does not change the size of the window. -/
theorem drawLoop_size {β : Type} (l : List (Point2D β)) (s : Screen) :
    (drawLoop s l).width = s.width ∧ (drawLoop s l).height = s.height := by
  induction l generalizing s with
  | nil => exact ⟨rfl, rfl⟩
  | cons a l ih =>
    have hstep : drawLoop s (a :: l) = drawLoop (mvaddch s a.y a.x a.c) l := rfl
    rw [hstep]
    obtain ⟨h1, h2⟩ := ih (mvaddch s a.y a.x a.c)
    rw [h1, h2]
    unfold mvaddch
    split_ifs <;> exact ⟨rfl, rfl⟩

/-- Drawing a list followed by one more point is one more `mvaddch`. -/
theorem drawLoop_concat {β : Type} (l : List (Point2D β)) (a : Point2D β) (s : Screen) :
    drawLoop s (l ++ [a]) = mvaddch (drawLoop s l) a.y a.x a.c := by
  simp [drawLoop, List.foldl_append]

/-- The writes recorded by the draw loop: one per point, in list order, when every point
is inside the window. -/
theorem drawLoop_writes {β : Type} (l : List (Point2D β)) (s : Screen)
    (hin : ∀ p ∈ l, 0 ≤ p.x ∧ p.x < s.width ∧ 0 ≤ p.y ∧ p.y < s.height) :
    (drawLoop s l).writes = s.writes ++ l.map (fun p => (p.y, p.x, p.c)) := by
  induction l generalizing s with
  | nil => simp [drawLoop]
  | cons a l ih =>
    have hstep : drawLoop s (a :: l) = drawLoop (mvaddch s a.y a.x a.c) l := rfl
    have ha := hin a (List.mem_cons_self _ _)
    have hm : mvaddch s a.y a.x a.c =
        { s with
          cell := fun row col => if row = a.y ∧ col = a.x then a.c else s.cell row col
          writes := s.writes ++ [(a.y, a.x, a.c)] } := by
      unfold mvaddch
      rw [if_pos ha]
    rw [hstep, ih (mvaddch s a.y a.x a.c)
      (by
        rw [hm]
        exact fun p hp => hin p (List.mem_cons_of_mem _ hp)),
      hm]
    simp

/-- Painter's algorithm for any drawing order of non-increasing depth: every cell hit by
a point of the list ends up holding the glyph of a point of minimal depth at that cell. -/
theorem drawLoop_nearest (l : List (Point2D α)) (s : Screen)
    (hsorted : l.Pairwise (fun p q => q.depth ≤ p.depth))
    (hin : ∀ p ∈ l, 0 ≤ p.x ∧ p.x < s.width ∧ 0 ≤ p.y ∧ p.y < s.height)
    (y x : Int) (hhit : ∃ p ∈ l, p.x = x ∧ p.y = y) :
    ∃ q ∈ l, q.x = x ∧ q.y = y ∧ (drawLoop s l).cell y x = q.c ∧
      ∀ r ∈ l, r.x = x → r.y = y → q.depth ≤ r.depth := by
  induction l using List.reverseRecOn with
  | nil =>
    obtain ⟨p, hp, _⟩ := hhit
    exact absurd hp (List.not_mem_nil p)
  | append_singleton l a ih =>
    rw [drawLoop_concat]
    have hsz := drawLoop_size l s
    have ha := hin a (by simp)
    have hpw := List.pairwise_append.mp hsorted
    have hwrite : (mvaddch (drawLoop s l) a.y a.x a.c).cell =
        fun row col => if row = a.y ∧ col = a.x then a.c
          else (drawLoop s l).cell row col := by
      unfold mvaddch
      rw [if_pos (by rw [hsz.1, hsz.2]; exact ha)]
    rw [hwrite]
    by_cases hcell : y = a.y ∧ x = a.x
    · refine ⟨a, by simp, hcell.2.symm, hcell.1.symm, ?_, ?_⟩
      · simp only [if_pos hcell]
      · intro r hr _ _
        rcases List.mem_append.mp hr with hr | hr
        · exact hpw.2.2 r hr a (by simp)
        · rw [List.mem_singleton.mp hr]
    · have hhit' : ∃ p ∈ l, p.x = x ∧ p.y = y := by
        obtain ⟨p, hp, hpx, hpy⟩ := hhit
        rcases List.mem_append.mp hp with hp | hp
        · exact ⟨p, hp, hpx, hpy⟩
        · rw [List.mem_singleton.mp hp] at hpx hpy
          exact absurd ⟨hpy.symm, hpx.symm⟩ hcell
      obtain ⟨q, hq, hqx, hqy, hqc, hmin⟩ :=
        ih hpw.1 (fun p hp => hin p (List.mem_append_left _ hp)) hhit'
      refine ⟨q, List.mem_append_left _ hq, hqx, hqy, ?_, ?_⟩
      · simp only [if_neg hcell]
        exact hqc
      · intro r hr hrx hry
        rcases List.mem_append.mp hr with hr | hr
        · exact hmin r hr hrx hry
        · rw [List.mem_singleton.mp hr] at hrx hry
          exact absurd ⟨hry.symm, hrx.symm⟩ hcell

/-- Claim C4: painter's algorithm. For every list of in-bounds projected points, after the
compositing step of `render` every cell hit by at least one point holds the glyph of a
point of minimal depth among the points mapped to that cell; in particular, of two points
at one cell with depths `5` and `20`, given in either order, the cell holds the glyph of
the point of depth `5`. -/
theorem painters_algorithm (width height : Int) (pts : List (Point2D α))
    (hin : ∀ p ∈ pts, 0 ≤ p.x ∧ p.x < width ∧ 0 ≤ p.y ∧ p.y < height) :
    (∀ y x : Int, (∃ p ∈ pts, p.x = x ∧ p.y = y) →
      ∃ q ∈ pts, q.x = x ∧ q.y = y ∧ (composite width height pts).cell y x = q.c ∧
        ∀ r ∈ pts, r.x = x → r.y = y → q.depth ≤ r.depth) ∧
    (∀ (y x : Int) (near far : Char), 0 ≤ x ∧ x < width ∧ 0 ≤ y ∧ y < height →
      (composite width height
        [({ x := x, y := y, c := near, depth := 5 } : Point2D α),
          { x := x, y := y, c := far, depth := 20 }]).cell y x = near ∧
      (composite width height
        [({ x := x, y := y, c := far, depth := 20 } : Point2D α),
          { x := x, y := y, c := near, depth := 5 }]).cell y x = near) := by
  have key : ∀ l : List (Point2D α),
      (∀ p ∈ l, 0 ≤ p.x ∧ p.x < width ∧ 0 ≤ p.y ∧ p.y < height) →
      ∀ y x : Int, (∃ p ∈ l, p.x = x ∧ p.y = y) →
      ∃ q ∈ l, q.x = x ∧ q.y = y ∧ (composite width height l).cell y x = q.c ∧
        ∀ r ∈ l, r.x = x → r.y = y → q.depth ≤ r.depth := by
    intro l hl y x hhit
    have hperm := stdSort_perm l
    obtain ⟨q, hq, hqx, hqy, hqc, hmin⟩ :=
      drawLoop_nearest (stdSort l) (clear width height) (stdSort_pairwise l)
        (fun p hp => hl p (hperm.subset hp)) y x
        (by
          obtain ⟨p, hp, hpxy⟩ := hhit
          exact ⟨p, hperm.symm.subset hp, hpxy⟩)
    exact ⟨q, hperm.subset hq, hqx, hqy, hqc,
      fun r hr => hmin r (hperm.symm.subset hr)⟩
  refine ⟨key pts hin, ?_⟩
  intro y x near far hxy
  have h5 : ∀ l : List (Point2D α),
      (∀ p ∈ l, p = ({ x := x, y := y, c := near, depth := 5 } : Point2D α) ∨
        p = { x := x, y := y, c := far, depth := 20 }) →
      ({ x := x, y := y, c := near, depth := 5 } : Point2D α) ∈ l →
      (composite width height l).cell y x = near := by
    intro l hl hmem
    obtain ⟨q, hq, _, _, hqc, hmin⟩ :=
      key l (fun p hp => by rcases hl p hp with rfl | rfl <;> exact hxy) y x
        ⟨_, hmem, rfl, rfl⟩
    rcases hl q hq with rfl | rfl
    · exact hqc
    · have := hmin _ hmem rfl rfl
      norm_num at this
  constructor
  · exact h5 _ (by simp) (by simp)
  · exact h5 _ (by intro p hp; simp at hp; tauto) (by simp)

/-- Witness for C4 on an 80 by 24 window: two rational-depth points at cell
`(row 3, column 7)`; the cell ends up with the glyph `'='` of the nearer point. -/
theorem painters_algorithm_witness :
    (composite 80 24
      [({ x := 7, y := 3, c := '=', depth := 5 } : Point2D ℚ),
        { x := 7, y := 3, c := '+', depth := 20 }]).cell 3 7 = '=' :=
  ((painters_algorithm 80 24
    [({ x := 7, y := 3, c := '=', depth := 5 } : Point2D ℚ),
      { x := 7, y := 3, c := '+', depth := 20 }]
    (by
      intro p hp
      simp only [List.mem_cons, List.mem_singleton, List.not_mem_nil, or_false] at hp
      rcases hp with rfl | rfl <;> decide)).2 3 7 '=' '+' (by decide)).1

end CompositingTheorems

section FrameTheorems

variable {α : Type} [LinearOrderedField α] [FloorRing α]

/-- A result of `project` is in bounds exactly when its `x` is not the sentinel `-1`. -/
theorem project_x_ne_sentinel_iff (width height : Int) (p : Vector3D α) :
    (project width height p).x ≠ -1 ↔
      (0 ≤ (project width height p).x ∧ (project width height p).x < width ∧
        0 ≤ (project width height p).y ∧ (project width height p).y < height) := by
  constructor
  · intro hne
    by_cases h : screenX width p ≥ 0 ∧ screenX width p < width ∧
        screenY height p ≥ 0 ∧ screenY height p < height
    · rw [project_of_inBounds width height p h]
      exact h
    · rw [project_of_not_inBounds width height p h] at hne
      exact absurd rfl hne
  · intro h hx
    rw [hx] at h
    exact absurd h.1 (by decide)

/-- The first loop of `render` keeps, in geometry order, the projections whose `x` is not
`-1`. -/
theorem projectLoop_eq_filter (sin cos : α → α) (width height : Int)
    (points : List (Vector3D α)) (angleX angleY : α) :
    projectLoop sin cos width height points angleX angleY =
      (points.map (fun point => project width height
        (rotatePoint sin cos point angleX angleY))).filter (fun q => decide (q.x ≠ -1)) := by
  have gen : ∀ (l : List (Vector3D α)) (acc : List (Point2D α)),
      l.foldl
        (fun projectedPoints point =>
          let rotated := rotatePoint sin cos point angleX angleY
          let projected := project width height rotated
          if projected.x ≠ -1 then projectedPoints ++ [projected] else projectedPoints)
        acc =
      acc ++ (l.map (fun point => project width height
        (rotatePoint sin cos point angleX angleY))).filter (fun q => decide (q.x ≠ -1)) := by
    intro l
    induction l with
    | nil => intro acc; simp
    | cons a l ih =>
      intro acc
      rw [List.foldl_cons, ih, List.map_cons]
      by_cases h : (project width height (rotatePoint sin cos a angleX angleY)).x ≠ -1
      · rw [List.filter_cons_of_pos (by simpa using h)]
        simp only [if_pos h, List.append_assoc, List.singleton_append]
      · rw [List.filter_cons_of_neg (by simpa using h)]
        simp only [if_neg h]
  simpa [projectLoop] using gen points []

/-- Claim C5: the sequence of writes made to the display by `render` is, point for point,
a list that is a permutation of the in-bounds projections of the frame and is ordered by
non-increasing depth (farthest first). -/
theorem renderWrites_perm_sorted (sin cos : α → α) (width height : Int)
    (points : List (Vector3D α)) (angleX angleY : α) :
    (render sin cos width height points angleX angleY).writes =
      (renderWrites sin cos width height points angleX angleY).map
        (fun p => (p.y, p.x, p.c)) ∧
    (renderWrites sin cos width height points angleX angleY).Perm
      ((points.map (fun point => project width height
          (rotatePoint sin cos point angleX angleY))).filter
        (fun q => decide (0 ≤ q.x ∧ q.x < width ∧ 0 ≤ q.y ∧ q.y < height))) ∧
    (renderWrites sin cos width height points angleX angleY).Pairwise
      (fun p q => q.depth ≤ p.depth) := by
  have hwrites : (render sin cos width height points angleX angleY).writes =
      (renderWrites sin cos width height points angleX angleY).map
        (fun p => (p.y, p.x, p.c)) := by
    have hin : ∀ q ∈ renderWrites sin cos width height points angleX angleY,
        0 ≤ q.x ∧ q.x < (clear width height).width ∧
          0 ≤ q.y ∧ q.y < (clear width height).height := by
      intro q hq
      have hq' := (stdSort_perm _).subset hq
      rw [projectLoop_eq_filter] at hq'
      obtain ⟨hq1, hq2⟩ := List.mem_filter.mp hq'
      obtain ⟨point, _, rfl⟩ := List.mem_map.mp hq1
      exact (project_x_ne_sentinel_iff width height _).mp (by simpa using hq2)
    have h := drawLoop_writes (renderWrites sin cos width height points angleX angleY)
      (clear width height) hin
    simpa [render, composite, renderWrites, clear] using h
  refine ⟨hwrites, ?_, stdSort_pairwise _⟩
  have hfilter :
      (points.map (fun point => project width height
          (rotatePoint sin cos point angleX angleY))).filter
        (fun q => decide (0 ≤ q.x ∧ q.x < width ∧ 0 ≤ q.y ∧ q.y < height)) =
      (points.map (fun point => project width height
          (rotatePoint sin cos point angleX angleY))).filter
        (fun q => decide (q.x ≠ -1)) := by
    apply List.filter_congr
    intro q hq
    obtain ⟨point, _, rfl⟩ := List.mem_map.mp hq
    exact decide_eq_decide.mpr (project_x_ne_sentinel_iff width height _).symm
  rw [hfilter, ← projectLoop_eq_filter]
  exact stdSort_perm _

end FrameTheorems

section GenerationTheorems

variable {α : Type} [LinearOrderedField α]

/-- The six points pushed for a grid pair inside the square lie on the cube surface. -/
theorem facePoints_onCubeSurface (size x y : α) (hx : -size ≤ x ∧ x ≤ size)
    (hy : -size ≤ y ∧ y ≤ size) : ∀ p ∈ facePoints size x y, OnCubeSurface size p := by
  have hs : -size ≤ size := hx.1.trans hx.2
  intro p hp
  simp only [facePoints, List.mem_cons, List.mem_singleton, List.not_mem_nil, or_false] at hp
  rcases hp with rfl | rfl | rfl | rfl | rfl | rfl <;>
    simp only [OnCubeSurface, le_refl, true_and, and_true, true_or, or_true, and_self, hs,
      hx.1, hx.2, hy.1, hy.2]

/-- The inner loop only appends points of the cube surface. -/
theorem innerLoop_onCubeSurface (size step x : α) (hstep : 0 < step)
    (hx : -size ≤ x ∧ x ≤ size) :
    ∀ (fuel : Nat) (y : α) (points result : List (Vector3D α)), -size ≤ y →
      (∀ p ∈ points, OnCubeSurface size p) →
      innerLoop size step x fuel y points = some result →
      ∀ p ∈ result, OnCubeSurface size p := by
  intro fuel
  induction fuel with
  | zero => intro y points result _ _ h; simp [innerLoop] at h
  | succ fuel ih =>
    intro y points result hy hpts h
    unfold innerLoop at h
    by_cases hle : y ≤ size
    · rw [if_pos hle] at h
      refine ih (y + step) _ result (by linarith) ?_ h
      intro p hp
      rcases List.mem_append.mp hp with hp | hp
      · exact hpts p hp
      · exact facePoints_onCubeSurface size x y hx ⟨hy, hle⟩ p hp
    · rw [if_neg hle] at h
      cases h
      exact hpts

/-- The outer loop only appends points of the cube surface. -/
theorem outerLoop_onCubeSurface (size step : α) (hstep : 0 < step) :
    ∀ (fuel : Nat) (x : α) (points result : List (Vector3D α)), -size ≤ x →
      (∀ p ∈ points, OnCubeSurface size p) →
      outerLoop size step fuel x points = some result →
      ∀ p ∈ result, OnCubeSurface size p := by
  intro fuel
  induction fuel with
  | zero => intro x points result _ _ h; simp [outerLoop] at h
  | succ fuel ih =>
    intro x points result hx hpts h
    unfold outerLoop at h
    by_cases hle : x ≤ size
    · rw [if_pos hle] at h
      cases hin : innerLoop size step x fuel (-size) points with
      | none => rw [hin] at h; cases h
      | some mid =>
        rw [hin] at h
        exact ih (x + step) mid result (by linarith)
          (innerLoop_onCubeSurface size step x hstep ⟨hx, hle⟩ fuel (-size) points mid
            le_rfl hpts hin) h
    · rw [if_neg hle] at h
      cases h
      exact hpts

/-- More fuel does not change a result of the inner loop. -/
theorem innerLoop_fuel_mono (size step x : α) :
    ∀ (fuel fuel' : Nat) (y : α) (points result : List (Vector3D α)), fuel ≤ fuel' →
      innerLoop size step x fuel y points = some result →
      innerLoop size step x fuel' y points = some result := by
  intro fuel
  induction fuel with
  | zero => intro fuel' y points result _ h; simp [innerLoop] at h
  | succ fuel ih =>
    intro fuel' y points result hle h
    obtain ⟨k, rfl⟩ : ∃ k, fuel' = k + 1 := ⟨fuel' - 1, by omega⟩
    unfold innerLoop at h ⊢
    by_cases hy : y ≤ size
    · rw [if_pos hy] at h ⊢
      exact ih k _ _ _ (by omega) h
    · rw [if_neg hy] at h ⊢
      exact h

/-- The inner loop ends once `k` steps lead past `size`: fuel `k + 1` is enough. -/
theorem innerLoop_terminates (size step x : α) :
    ∀ (k : Nat) (y : α) (points : List (Vector3D α)), size < y + k * step →
      ∃ result, innerLoop size step x (k + 1) y points = some result := by
  intro k
  induction k with
  | zero =>
    intro y points h
    have hy : ¬ y ≤ size := by
      simp only [Nat.cast_zero, zero_mul, add_zero] at h
      exact not_le.mpr h
    exact ⟨points, by unfold innerLoop; rw [if_neg hy]⟩
  | succ k ih =>
    intro y points h
    unfold innerLoop
    by_cases hy : y ≤ size
    · rw [if_pos hy]
      apply ih
      push_cast at h
      linarith
    · rw [if_neg hy]
      exact ⟨points, rfl⟩

/-- The outer loop ends: with `n` steps enough for one inner loop and `k` steps enough
for the rest of the outer loop, fuel `k + n + 2` is enough. -/
theorem outerLoop_terminates (size step : α) (n : Nat)
    (hn : size < -size + n * step) :
    ∀ (k : Nat) (x : α) (points : List (Vector3D α)), size < x + k * step →
      ∃ result, outerLoop size step (k + n + 2) x points = some result := by
  intro k
  induction k with
  | zero =>
    intro x points h
    have hx : ¬ x ≤ size := by
      simp only [Nat.cast_zero, zero_mul, add_zero] at h
      exact not_le.mpr h
    exact ⟨points, by unfold outerLoop; rw [if_neg hx]⟩
  | succ k ih =>
    intro x points h
    unfold outerLoop
    by_cases hx : x ≤ size
    · rw [if_pos hx]
      obtain ⟨mid, hmid⟩ := innerLoop_terminates size step x n (-size) points hn
      have hmid' := innerLoop_fuel_mono size step x (n + 1) (k + 1 + n + 1) (-size) points
        mid (by omega) hmid
      rw [hmid']
      have := ih (x + step) mid (by push_cast at h; linarith)
      simpa [Nat.add_assoc, Nat.add_comm, Nat.add_left_comm] using this
    · rw [if_neg hx]
      exact ⟨points, rfl⟩

/-- Claim C10: for `size > 0` and `step > 0` the generation loop ends, and every point it
produces lies on the surface of the cube `[-size, size]^3`: the three coordinates are in
`[-size, size]` and at least one of them is `size` or `-size`. -/
theorem generatePoints_onCubeSurface [Archimedean α] (size step : α) (_hsize : 0 < size)
    (hstep : 0 < step) :
    (∃ fuel points, generatePoints size step fuel = some points) ∧
    ∀ fuel points, generatePoints size step fuel = some points →
      ∀ p ∈ points, OnCubeSurface size p := by
  constructor
  · obtain ⟨n, hn⟩ := exists_nat_gt ((size + size) / step)
    have hn' : size < -size + n * step := by
      have := (div_lt_iff₀ hstep).mp hn
      linarith
    obtain ⟨result, hres⟩ := outerLoop_terminates size step n hn' n (-size) [] hn'
    exact ⟨n + n + 2, result, hres⟩
  · intro fuel points h
    exact outerLoop_onCubeSurface size step hstep fuel (-size) [] points le_rfl
      (fun p hp => absurd hp (List.not_mem_nil p)) h

/-- Witness for C10 at the constants of the source, `size = 5` and `step = 3/10`. -/
theorem generatePoints_onCubeSurface_witness :
    (0 : ℚ) < 5 ∧ (0 : ℚ) < 3 / 10 ∧
    (∃ fuel points, generatePoints (5 : ℚ) (3 / 10) fuel = some points) ∧
    ∀ fuel points, generatePoints (5 : ℚ) (3 / 10) fuel = some points →
      ∀ p ∈ points, OnCubeSurface (5 : ℚ) p :=
  ⟨by norm_num, by norm_num,
    generatePoints_onCubeSurface (5 : ℚ) (3 / 10) (by norm_num) (by norm_num)⟩

end GenerationTheorems

section RunTheorems

variable {α : Type} [LinearOrderedField α] [FloorRing α]

/-- The frames rendered by `run`: one per poll that precedes the first `'q'`, the `j`-th
of them (counting from zero) with the angles advanced `j + 1` times. -/
theorem run_frames (sin cos : α → α) (width height : Int) (points : List (Vector3D α))
    (keys : List Int) (st : RunState α) :
    (run sin cos width height points keys st).frames =
      st.frames ++
        (List.range (keys.takeWhile (fun k => decide (k ≠ keyQ))).length).map
          (fun (j : Nat) =>
            ({ angleX := st.angleX + 3 / 100 * ((j : α) + 1),
               angleY := st.angleY + 2 / 100 * ((j : α) + 1),
               screen := render sin cos width height points
                 (st.angleX + 3 / 100 * ((j : α) + 1))
                 (st.angleY + 2 / 100 * ((j : α) + 1)) } : Frame α)) := by
  induction keys generalizing st with
  | nil => simp [run]
  | cons k ks ih =>
    by_cases hk : k = keyQ
    · simp [run, List.takeWhile, hk]
    · have htw : (List.takeWhile (fun k => decide (k ≠ keyQ)) (k :: ks)) =
          k :: List.takeWhile (fun k => decide (k ≠ keyQ)) ks := by
        simp [List.takeWhile, hk]
      rw [htw, List.length_cons, List.range_succ_eq_map, List.map_cons, List.map_map]
      simp only [run, if_neg hk]
      rw [ih]
      simp only [List.append_assoc, List.singleton_append, Nat.cast_zero, zero_add, mul_one]
      congr 2
      apply List.map_congr_left
      intro j _
      simp only [Function.comp_apply, Nat.cast_succ]
      have h1 : st.angleX + 3 / 100 + 3 / 100 * ((j : α) + 1) =
          st.angleX + 3 / 100 * ((j : α) + 1 + 1) := by ring
      have h2 : st.angleY + 2 / 100 + 2 / 100 * ((j : α) + 1) =
          st.angleY + 2 / 100 * ((j : α) + 1 + 1) := by ring
      rw [h1, h2]

/-- The loop of `run` has been left exactly when it was already left or a `'q'` was
polled. -/
theorem run_exited (sin cos : α → α) (width height : Int) (points : List (Vector3D α))
    (keys : List Int) (st : RunState α) :
    (run sin cos width height points keys st).exited = true ↔
      (st.exited = true ∨ keyQ ∈ keys) := by
  induction keys generalizing st with
  | nil => simp [run]
  | cons k ks ih =>
    by_cases hk : k = keyQ
    · simp [run, hk]
    · simp only [run, if_neg hk]
      rw [ih]
      simp only [List.mem_cons]
      constructor
      · rintro (h | h)
        · exact Or.inl h
        · exact Or.inr (Or.inr h)
      · rintro (h | h | h)
        · exact Or.inl h
        · exact absurd h.symm hk
        · exact Or.inr h

/-- A poll of `'q'` leaves the loop in the state reached by the polls before it, and the
polls after it are never made. -/
theorem run_append_q (sin cos : α → α) (width height : Int) (points : List (Vector3D α))
    (pre post : List Int) (st : RunState α) (hpre : keyQ ∉ pre) :
    run sin cos width height points (pre ++ keyQ :: post) st =
      { run sin cos width height points pre st with exited := true } := by
  induction pre generalizing st with
  | nil => simp [run]
  | cons k ks ih =>
    have hk : ¬ k = keyQ := fun h => hpre (by simp [h])
    have hks : keyQ ∉ ks := fun h => hpre (List.mem_cons_of_mem _ h)
    simp only [List.cons_append, run, if_neg hk]
    exact ih _ hks

/-- The angles held by the engine after `run` has consumed a key sequence. -/
theorem run_angles (sin cos : α → α) (width height : Int) (points : List (Vector3D α))
    (keys : List Int) (st : RunState α) :
    (run sin cos width height points keys st).angleX =
      st.angleX + 3 / 100 * ((keys.takeWhile (fun k => decide (k ≠ keyQ))).length : α) ∧
    (run sin cos width height points keys st).angleY =
      st.angleY + 2 / 100 * ((keys.takeWhile (fun k => decide (k ≠ keyQ))).length : α) := by
  induction keys generalizing st with
  | nil => simp [run]
  | cons k ks ih =>
    by_cases hk : k = keyQ
    · simp [run, List.takeWhile, hk]
    · have htw : (List.takeWhile (fun k => decide (k ≠ keyQ)) (k :: ks)) =
          k :: List.takeWhile (fun k => decide (k ≠ keyQ)) ks := by
        simp [List.takeWhile, hk]
      rw [htw, List.length_cons]
      simp only [run, if_neg hk]
      rw [(ih _).1, (ih _).2]
      push_cast
      constructor <;> ring

/-- Claim C12: exit semantics of `run` over the sequence of polled keys. The number of
frames rendered is the number of polls that precede the first `'q'`; the loop is left
exactly when a `'q'` is polled (any other key, such as `'Q'`, or no key never leaves it);
the poll of `'q'` leaves the angles and the rendered frames as they were, and no poll
after it is made. -/
theorem run_exit_semantics (sin cos : α → α) (width height : Int)
    (points : List (Vector3D α)) (keys : List Int) :
    (run sin cos width height points keys RunState.init).frames.length =
      (keys.takeWhile (fun k => decide (k ≠ keyQ))).length ∧
    ((run sin cos width height points keys RunState.init).exited = true ↔ keyQ ∈ keys) ∧
    (∀ pre post : List Int, keyQ ∉ pre →
      run sin cos width height points (pre ++ keyQ :: post) RunState.init =
        { run sin cos width height points pre RunState.init with exited := true } ∧
      (run sin cos width height points pre RunState.init).exited = false ∧
      (run sin cos width height points pre RunState.init).frames.length = pre.length) ∧
    (run sin cos width height points [Int.ofNat 'Q'.toNat, -1] RunState.init).exited
      = false := by
  refine ⟨?_, ?_, ?_, ?_⟩
  · rw [run_frames]
    simp [RunState.init]
  · rw [run_exited]
    simp [RunState.init]
  · intro pre post hpre
    refine ⟨run_append_q sin cos width height points pre post _ hpre, ?_, ?_⟩
    · have h := run_exited sin cos width height points pre (RunState.init : RunState α)
      have hne : ¬ (run sin cos width height points pre RunState.init).exited = true := by
        rw [h]
        simp [RunState.init, hpre]
      simpa using hne
    · rw [run_frames]
      have htw : pre.takeWhile (fun k => decide (k ≠ keyQ)) = pre := by
        rw [List.takeWhile_eq_self_iff]
        intro k hk
        have : k ≠ keyQ := fun h => hpre (h ▸ hk)
        simpa using this
      rw [htw]
      simp [RunState.init]
  · have h := run_exited sin cos width height points [Int.ofNat 'Q'.toNat, -1]
      (RunState.init : RunState α)
    have hne : ¬ (run sin cos width height points [Int.ofNat 'Q'.toNat, -1]
        RunState.init).exited = true := by
      rw [h]
      simp only [RunState.init, List.mem_cons, List.mem_singleton, List.not_mem_nil,
        or_false, Bool.false_eq_true, false_or]
      decide
    simpa using hne

/-- Witness for C12 over `ℚ`: after the polls "no key", `'Q'` the poll of `'q'` leaves the
loop with two frames rendered, and the later key is never polled. -/
theorem run_exit_semantics_witness :
    keyQ ∉ [(-1 : Int), Int.ofNat 'Q'.toNat] ∧
    run (fun _ : ℚ => 0) (fun _ : ℚ => 1) 80 24 [] ([-1, Int.ofNat 'Q'.toNat] ++ keyQ :: [7])
        RunState.init =
      { run (fun _ : ℚ => 0) (fun _ : ℚ => 1) 80 24 [] [-1, Int.ofNat 'Q'.toNat]
          RunState.init with exited := true } ∧
    (run (fun _ : ℚ => 0) (fun _ : ℚ => 1) 80 24 [] [-1, Int.ofNat 'Q'.toNat]
        RunState.init).frames.length = 2 :=
  ⟨by decide,
    ((run_exit_semantics (fun _ : ℚ => 0) (fun _ : ℚ => 1) 80 24 [] []).2.2.1
      [-1, Int.ofNat 'Q'.toNat] [7] (by decide)).1,
    ((run_exit_semantics (fun _ : ℚ => 0) (fun _ : ℚ => 1) 80 24 [] []).2.2.1
      [-1, Int.ofNat 'Q'.toNat] [7] (by decide)).2.2⟩

/-- Claim C13: starting from `angleX = angleY = 0`, every tick that does not exit advances
the angles by `(0.03, 0.02)` before it renders, so the `k`-th rendered frame (`k ≥ 1`)
uses `angleX = 0.03 * k` and `angleY = 0.02 * k`; the angles `(0, 0)` are never
rendered. -/
theorem run_frame_angles (sin cos : α → α) (width height : Int)
    (points : List (Vector3D α)) (keys : List Int) (k : Nat) (hk : 1 ≤ k) (f : Frame α)
    (hf : (run sin cos width height points keys RunState.init).frames[k - 1]? = some f) :
    f.angleX = 3 / 100 * (k : α) ∧ f.angleY = 2 / 100 * (k : α) ∧
    f.screen = render sin cos width height points (3 / 100 * (k : α)) (2 / 100 * (k : α)) ∧
    ¬ (f.angleX = 0 ∧ f.angleY = 0) ∧
    (run sin cos width height points keys RunState.init).angleX =
      3 / 100 * ((run sin cos width height points keys RunState.init).frames.length : α) ∧
    (run sin cos width height points keys RunState.init).angleY =
      2 / 100 * ((run sin cos width height points keys RunState.init).frames.length : α) := by
  have hkpos : (0 : α) < (k : α) := by exact_mod_cast hk
  have hcast : ((k - 1 : Nat) : α) + 1 = (k : α) := by
    have : k - 1 + 1 = k := by omega
    exact_mod_cast this
  have hlen : (run sin cos width height points keys RunState.init).frames.length =
      (keys.takeWhile (fun k => decide (k ≠ keyQ))).length := by
    rw [run_frames]
    simp [RunState.init]
  have hang := run_angles sin cos width height points keys (RunState.init : RunState α)
  rw [run_frames] at hf
  simp only [RunState.init, List.nil_append, zero_add, List.getElem?_map,
    Option.map_eq_some'] at hf
  obtain ⟨j, hj, rfl⟩ := hf
  have hjk : j = k - 1 := by
    obtain ⟨_, h2⟩ := List.getElem?_eq_some.mp hj
    simpa using h2.symm
  subst hjk
  simp only [hcast]
  refine ⟨trivial, trivial, trivial, ?_, ?_, ?_⟩
  · intro h
    have := h.1
    linarith [mul_pos (show (0 : α) < 3 / 100 by norm_num) hkpos]
  · rw [hlen, hang.1]
    simp [RunState.init]
  · rw [hlen, hang.2]
    simp [RunState.init]

/-- Witness for C13 over `ℚ`: with two polls without a key, the second rendered frame uses
the angles `0.06` and `0.04`. -/
theorem run_frame_angles_witness :
    (1 : Nat) ≤ 2 ∧
    (0 + 3 / 100 + 3 / 100 : ℚ) = 3 / 100 * ((2 : Nat) : ℚ) ∧
    (0 + 2 / 100 + 2 / 100 : ℚ) = 2 / 100 * ((2 : Nat) : ℚ) :=
  ⟨by decide,
    (run_frame_angles (fun _ : ℚ => 0) (fun _ : ℚ => 1) 80 24 [] [-1, -1] 2 (by decide)
      { angleX := 0 + 3 / 100 + 3 / 100, angleY := 0 + 2 / 100 + 2 / 100,
        screen := render (fun _ : ℚ => 0) (fun _ : ℚ => 1) 80 24 []
          (0 + 3 / 100 + 3 / 100) (0 + 2 / 100 + 2 / 100) }
      (by simp [run, RunState.init, keyQ])).1,
    (run_frame_angles (fun _ : ℚ => 0) (fun _ : ℚ => 1) 80 24 [] [-1, -1] 2 (by decide)
      { angleX := 0 + 3 / 100 + 3 / 100, angleY := 0 + 2 / 100 + 2 / 100,
        screen := render (fun _ : ℚ => 0) (fun _ : ℚ => 1) 80 24 []
          (0 + 3 / 100 + 3 / 100) (0 + 2 / 100 + 2 / 100) }
      (by simp [run, RunState.init, keyQ])).2.1⟩

end RunTheorems

section FilterTheorems

variable {α : Type} [LinearOrderedField α] [FloorRing α]

/-- Claim C14: the filter `projected.x != -1` of `render` is exact. The list handed to the
sort holds, in geometry order, exactly the projections of the points whose computed screen
coordinates are in bounds; no sentinel reaches the sort or the draw loop, and no in-bounds
point is dropped. -/
theorem projectLoop_exact (sin cos : α → α) (width height : Int)
    (points : List (Vector3D α)) (angleX angleY : α) :
    projectLoop sin cos width height points angleX angleY =
      (points.filter (fun point => decide
        (0 ≤ screenX width (rotatePoint sin cos point angleX angleY) ∧
          screenX width (rotatePoint sin cos point angleX angleY) < width ∧
          0 ≤ screenY height (rotatePoint sin cos point angleX angleY) ∧
          screenY height (rotatePoint sin cos point angleX angleY) < height))).map
        (fun point => project width height (rotatePoint sin cos point angleX angleY)) ∧
    (∀ q ∈ projectLoop sin cos width height points angleX angleY,
      q.x ≠ -1 ∧ 0 ≤ q.x ∧ q.x < width ∧ 0 ≤ q.y ∧ q.y < height) ∧
    (∀ q ∈ renderWrites sin cos width height points angleX angleY,
      q.x ≠ -1 ∧ 0 ≤ q.x ∧ q.x < width ∧ 0 ≤ q.y ∧ q.y < height) := by
  have hmem : ∀ q ∈ projectLoop sin cos width height points angleX angleY,
      q.x ≠ -1 ∧ 0 ≤ q.x ∧ q.x < width ∧ 0 ≤ q.y ∧ q.y < height := by
    intro q hq
    rw [projectLoop_eq_filter] at hq
    obtain ⟨hq1, hq2⟩ := List.mem_filter.mp hq
    obtain ⟨point, _, rfl⟩ := List.mem_map.mp hq1
    have hne : (project width height (rotatePoint sin cos point angleX angleY)).x ≠ -1 := by
      simpa using hq2
    exact ⟨hne, (project_x_ne_sentinel_iff width height _).mp hne⟩
  refine ⟨?_, hmem, fun q hq => hmem q ((stdSort_perm _).subset hq)⟩
  rw [projectLoop_eq_filter, List.filter_map]
  congr 1
  apply List.filter_congr
  intro point _
  simp only [Function.comp_apply]
  apply decide_eq_decide.mpr
  by_cases h : screenX width (rotatePoint sin cos point angleX angleY) ≥ 0 ∧
      screenX width (rotatePoint sin cos point angleX angleY) < width ∧
      screenY height (rotatePoint sin cos point angleX angleY) ≥ 0 ∧
      screenY height (rotatePoint sin cos point angleX angleY) < height
  · rw [project_of_inBounds width height _ h]
    constructor
    · intro _; exact h
    · intro _ hx
      have h0 := h.1
      simp only [] at hx
      rw [hx] at h0
      exact absurd h0 (by decide)
  · rw [project_of_not_inBounds width height _ h]
    constructor
    · intro hne; exact absurd rfl hne
    · intro h'; exact absurd h' h

end FilterTheorems

section PeriodicityTheorems

open Real

/-- Claim C15: the rotation is `2π`-periodic in each angle, for all integers `m` and `n`. -/
theorem rotatePoint_periodic (p : Vector3D ℝ) (ax ay : ℝ) (m n : Int) :
    rotatePoint Real.sin Real.cos p (ax + 2 * π * m) (ay + 2 * π * n) =
      rotatePoint Real.sin Real.cos p ax ay := by
  have hm : ax + 2 * π * (m : ℝ) = ax + (m : ℝ) * (2 * π) := by ring
  have hn : ay + 2 * π * (n : ℝ) = ay + (n : ℝ) * (2 * π) := by ring
  simp only [rotatePoint, hm, hn, Real.sin_add_int_mul_two_pi, Real.cos_add_int_mul_two_pi]

/-- Claim C16: closed form of `rotatePoint`. The Y-axis rotation by `ay` is applied first
and the X-axis rotation by `ax` is applied to its result. -/
theorem rotatePoint_closed_form (x y z ax ay : ℝ) :
    rotatePoint Real.sin Real.cos (⟨x, y, z⟩ : Vector3D ℝ) ax ay =
      ⟨x * Real.cos ay + z * Real.sin ay,
        y * Real.cos ax - (-x * Real.sin ay + z * Real.cos ay) * Real.sin ax,
        y * Real.sin ax + (-x * Real.sin ay + z * Real.cos ay) * Real.cos ax⟩ := by
  simp only [rotatePoint]

end PeriodicityTheorems

section CountTheorems

variable {α : Type} [LinearOrderedField α]

/-- The inner loop appends six points per iteration: when `m` steps from `y` are the
first to pass `size`, a result has `6 * m` points more than the accumulator. -/
theorem innerLoop_length (size step x : α) (hstep : 0 < step) :
    ∀ (fuel m : Nat) (y : α) (points result : List (Vector3D α)),
      size < y + m * step → y + m * step ≤ size + step →
      innerLoop size step x fuel y points = some result →
      result.length = points.length + 6 * m := by
  intro fuel
  induction fuel with
  | zero => intro m y points result _ _ h; simp [innerLoop] at h
  | succ fuel ih =>
    intro m y points result h1 h2 h
    unfold innerLoop at h
    by_cases hle : y ≤ size
    · rw [if_pos hle] at h
      cases m with
      | zero =>
        simp only [Nat.cast_zero, zero_mul, add_zero] at h1
        exact absurd hle (not_le.mpr h1)
      | succ m =>
        push_cast at h1 h2
        have := ih m (y + step) _ result (by linarith) (by linarith) h
        rw [this, List.length_append]
        simp only [facePoints, List.length_cons, List.length_nil]
        omega
    · rw [if_neg hle] at h
      cases h
      cases m with
      | zero => simp
      | succ m =>
        push_cast at h2
        have hm : (0 : α) ≤ (m : α) * step := mul_nonneg (Nat.cast_nonneg m) hstep.le
        exact absurd (by linarith) hle

/-- The outer loop runs one inner loop per iteration: with `n` iterations in each inner
loop and `m` iterations left in the outer loop, a result has `m * (6 * n)` points more
than the accumulator. -/
theorem outerLoop_length (size step : α) (hstep : 0 < step) (n : Nat)
    (hn1 : size < -size + n * step) (hn2 : -size + n * step ≤ size + step) :
    ∀ (fuel m : Nat) (x : α) (points result : List (Vector3D α)),
      size < x + m * step → x + m * step ≤ size + step →
      outerLoop size step fuel x points = some result →
      result.length = points.length + m * (6 * n) := by
  intro fuel
  induction fuel with
  | zero => intro m x points result _ _ h; simp [outerLoop] at h
  | succ fuel ih =>
    intro m x points result h1 h2 h
    unfold outerLoop at h
    by_cases hle : x ≤ size
    · rw [if_pos hle] at h
      cases hin : innerLoop size step x fuel (-size) points with
      | none => rw [hin] at h; cases h
      | some mid =>
        rw [hin] at h
        have hmid := innerLoop_length size step x hstep fuel n (-size) points mid hn1 hn2 hin
        cases m with
        | zero =>
          simp only [Nat.cast_zero, zero_mul, add_zero] at h1
          exact absurd hle (not_le.mpr h1)
        | succ m =>
          push_cast at h1 h2
          have := ih m (x + step) mid result (by linarith) (by linarith) h
          rw [this, hmid]
          ring
    · rw [if_neg hle] at h
      cases h
      cases m with
      | zero => simp
      | succ m =>
        push_cast at h2
        have hm : (0 : α) ≤ (m : α) * step := mul_nonneg (Nat.cast_nonneg m) hstep.le
        exact absurd (by linarith) hle

/-- The grid `-size + k * step`, `k = 0, 1, ...`, has exactly `⌊2 * size / step⌋ + 1`
values that are at most `size`. -/
theorem grid_count [FloorRing α] (size step : α) (hsize : 0 < size) (hstep : 0 < step)
    (k : Nat) : -size + k * step ≤ size ↔ k < ⌊2 * size / step⌋₊ + 1 := by
  have hq : (0 : α) ≤ 2 * size / step := by positivity
  rw [Nat.lt_add_one_iff, Nat.le_floor_iff hq, le_div_iff₀ hstep]
  constructor <;> intro h <;> linarith

/-- The number of points built by the constructor, for any fuel that lets the loops end. -/
theorem generatePoints_length [FloorRing α] (size step : α) (hsize : 0 < size)
    (hstep : 0 < step) (fuel : Nat) (points : List (Vector3D α))
    (h : generatePoints size step fuel = some points) :
    points.length = 6 * (⌊2 * size / step⌋₊ + 1) ^ 2 := by
  have hq : (0 : α) ≤ 2 * size / step := by positivity
  have h1 : size < -size + ((⌊2 * size / step⌋₊ + 1 : Nat) : α) * step := by
    have := Nat.lt_floor_add_one (2 * size / step)
    rw [div_lt_iff₀ hstep] at this
    push_cast
    linarith
  have h2 : -size + ((⌊2 * size / step⌋₊ + 1 : Nat) : α) * step ≤ size + step := by
    have := Nat.floor_le hq
    rw [le_div_iff₀ hstep] at this
    push_cast
    linarith
  have := outerLoop_length size step hstep _ h1 h2 fuel _ (-size) [] points h1 h2 h
  rw [this]
  simp only [List.length_nil, zero_add]
  ring

/-- The constructor loops end for `step > 0`. -/
theorem generatePoints_terminates [Archimedean α] (size step : α) (hstep : 0 < step) :
    ∃ fuel points, generatePoints size step fuel = some points := by
  obtain ⟨n, hn⟩ := exists_nat_gt ((size + size) / step)
  have hn' : size < -size + n * step := by
    have := (div_lt_iff₀ hstep).mp hn
    linarith
  obtain ⟨result, hres⟩ := outerLoop_terminates size step n hn' n (-size) [] hn'
  exact ⟨n + n + 2, result, hres⟩

/-- Claim C17: for `size > 0` and `step > 0` the generation loop ends and emits exactly
`6 * n ^ 2` points, where `n = ⌊2 * size / step⌋ + 1` is the number of grid values
`-size + k * step` that are at most `size`; six points are emitted per grid pair, without
deduplication. -/
theorem generatePoints_count [FloorRing α] (size step : α) (hsize : 0 < size)
    (hstep : 0 < step) :
    (∃ fuel points, generatePoints size step fuel = some points) ∧
    (∀ fuel points, generatePoints size step fuel = some points →
      points.length = 6 * (⌊2 * size / step⌋₊ + 1) ^ 2) ∧
    (∀ k : Nat, -size + k * step ≤ size ↔ k < ⌊2 * size / step⌋₊ + 1) ∧
    (∀ x y : α, (facePoints size x y).length = 6) :=
  ⟨generatePoints_terminates size step hstep,
    fun fuel points h => generatePoints_length size step hsize hstep fuel points h,
    fun k => grid_count size step hsize hstep k,
    fun _ _ => rfl⟩

/-- The value of `n` for the constants of the source: `⌊2 * 5 / 0.3⌋ + 1 = 34`. -/
theorem grid_count_source : ⌊2 * (5 : ℚ) / (3 / 10)⌋₊ + 1 = 34 := by
  have : ⌊2 * (5 : ℚ) / (3 / 10)⌋₊ = 33 := by
    rw [Nat.floor_eq_iff (by norm_num)]
    norm_num
  rw [this]

/-- Witness for C17 at the constants of the source, `size = 5` and `step = 3/10`:
`n = 34` and `6 * 34 ^ 2 = 6936` points. -/
theorem generatePoints_count_witness :
    (0 : ℚ) < 5 ∧ (0 : ℚ) < 3 / 10 ∧ ⌊2 * (5 : ℚ) / (3 / 10)⌋₊ + 1 = 34 ∧
    6 * 34 ^ 2 = 6936 ∧
    (∃ fuel points, generatePoints (5 : ℚ) (3 / 10) fuel = some points) ∧
    (∀ fuel points, generatePoints (5 : ℚ) (3 / 10) fuel = some points →
      points.length = 6 * (⌊2 * (5 : ℚ) / (3 / 10)⌋₊ + 1) ^ 2) :=
  ⟨by norm_num, by norm_num, grid_count_source, by norm_num,
    (generatePoints_count (5 : ℚ) (3 / 10) (by norm_num) (by norm_num)).1,
    (generatePoints_count (5 : ℚ) (3 / 10) (by norm_num) (by norm_num)).2.1⟩

/-- Counterexample for C11: for `size = 5` and `step = 3/10` the loops end with `6936`
points, while `6 * ⌈2 * size / step + 1⌉ ^ 2 = 7350`; the two differ by `414`, more
than `6`. -/
theorem generatePoints_count_not_near_7350 :
    ∃ fuel points, generatePoints (5 : ℚ) (3 / 10) fuel = some points ∧
      points.length = 6936 ∧
      6 * ⌈2 * (5 : ℚ) / (3 / 10) + 1⌉ ^ 2 = 7350 ∧
      ¬ |(points.length : Int) - 6 * ⌈2 * (5 : ℚ) / (3 / 10) + 1⌉ ^ 2| ≤ 6 := by
  obtain ⟨fuel, points, h⟩ := generatePoints_terminates (5 : ℚ) (3 / 10) (by norm_num)
  have hlen : points.length = 6936 := by
    rw [generatePoints_length (5 : ℚ) (3 / 10) (by norm_num) (by norm_num) fuel points h,
      grid_count_source]
    norm_num
  have hceil : ⌈2 * (5 : ℚ) / (3 / 10) + 1⌉ = 35 := by
    rw [Int.ceil_eq_iff]
    norm_num
  refine ⟨fuel, points, h, hlen, ?_, ?_⟩
  · rw [hceil]; norm_num
  · rw [hlen, hceil]
    decide

/-- Claim C11 (amended): for `size = 5` and `step = 3/10` the constructor's loop ends and
generates exactly `6 * 34 ^ 2 = 6936` points, where `34 = ⌊2 * size / step⌋ + 1`. -/
theorem generatePoints_count_source :
    (∃ fuel points, generatePoints (5 : ℚ) (3 / 10) fuel = some points) ∧
    (∀ fuel points, generatePoints (5 : ℚ) (3 / 10) fuel = some points →
      points.length = 6936) ∧
    6 * (⌊2 * (5 : ℚ) / (3 / 10)⌋₊ + 1) ^ 2 = 6936 := by
  refine ⟨generatePoints_terminates (5 : ℚ) (3 / 10) (by norm_num), ?_, ?_⟩
  · intro fuel points h
    rw [generatePoints_length (5 : ℚ) (3 / 10) (by norm_num) (by norm_num) fuel points h,
      grid_count_source]
    norm_num
  · rw [grid_count_source]
    norm_num

end CountTheorems

section CubeBoundsTheorems

open Real

/-- The rotation preserves the squared norm. -/
theorem normSq_rotatePoint (p : Vector3D ℝ) (ax ay : ℝ) :
    normSq (rotatePoint Real.sin Real.cos p ax ay) = normSq p := by
  have hx := Real.sin_sq_add_cos_sq ax
  have hy := Real.sin_sq_add_cos_sq ay
  obtain ⟨x, y, z⟩ := p
  simp only [rotatePoint, normSq]
  linear_combination
    (y ^ 2 + (-x * Real.sin ay + z * Real.cos ay) ^ 2) * hx + (x ^ 2 + z ^ 2) * hy

/-- A rotated point of the surface of the cube of half-extent `5` has `z ^ 2 ≤ 75`. -/
theorem rotated_z_sq_le (p : Vector3D ℝ) (hp : OnCubeSurface 5 p) (ax ay : ℝ) :
    (rotatePoint Real.sin Real.cos p ax ay).z ^ 2 ≤ 75 := by
  have hnorm := normSq_rotatePoint p ax ay
  obtain ⟨⟨hx1, hx2⟩, ⟨hy1, hy2⟩, ⟨hz1, hz2⟩, _⟩ := hp
  have hpx : p.x ^ 2 ≤ 25 := by nlinarith
  have hpy : p.y ^ 2 ≤ 25 := by nlinarith
  have hpz : p.z ^ 2 ≤ 25 := by nlinarith
  have hrx := sq_nonneg (rotatePoint Real.sin Real.cos p ax ay).x
  have hry := sq_nonneg (rotatePoint Real.sin Real.cos p ax ay).y
  simp only [normSq] at hnorm
  linarith

/-- Every point built by the constructor for `size = 5` lies on the cube surface. -/
theorem generated_onCubeSurface (step : ℝ) (hstep : 0 < step) (fuel : Nat)
    (points : List (Vector3D ℝ)) (h : generatePoints (5 : ℝ) step fuel = some points)
    (p : Vector3D ℝ) (hp : p ∈ points) : OnCubeSurface 5 p :=
  outerLoop_onCubeSurface 5 step hstep fuel (-5) [] points le_rfl
    (fun q hq => absurd hq (List.not_mem_nil q)) h p hp

/-- The geometry for `size = 5` and the loop step `20`: a single grid pair. -/
theorem generatePoints_step20 :
    generatePoints (5 : ℝ) 20 3 = some (facePoints 5 (-5) (-5)) := by
  simp only [generatePoints, outerLoop, innerLoop]
  norm_num

/-- Claim C18: for every point `p` generated for the cube (`size = 5`) and all angles, the
rotated point `r` has `|r.z| ≤ 5 * √3`, so the denominator `r.z + 100` of `project` is
strictly positive and the scale is positive. -/
theorem rotated_denominator_pos (step : ℝ) (hstep : 0 < step) (fuel : Nat)
    (points : List (Vector3D ℝ)) (h : generatePoints (5 : ℝ) step fuel = some points)
    (p : Vector3D ℝ) (hp : p ∈ points) (ax ay : ℝ) :
    |(rotatePoint Real.sin Real.cos p ax ay).z| ≤ 5 * √3 ∧
    0 < (rotatePoint Real.sin Real.cos p ax ay).z + 100 ∧
    0 < projectScale (rotatePoint Real.sin Real.cos p ax ay) := by
  have hz := rotated_z_sq_le p (generated_onCubeSurface step hstep fuel points h p hp) ax ay
  have hs3 : (0 : ℝ) ≤ √3 := Real.sqrt_nonneg 3
  have hsq : (5 * √3) ^ 2 = 75 := by
    rw [mul_pow, Real.sq_sqrt (by norm_num : (0 : ℝ) ≤ 3)]
    norm_num
  have habs : |(rotatePoint Real.sin Real.cos p ax ay).z| ≤ 5 * √3 :=
    abs_le_of_sq_le_sq (by rw [hsq]; exact hz) (by positivity)
  have hlt : -9 < (rotatePoint Real.sin Real.cos p ax ay).z := by
    nlinarith [hz]
  have hden : 0 < (rotatePoint Real.sin Real.cos p ax ay).z + 100 := by linarith
  refine ⟨habs, hden, ?_⟩
  simp only [projectScale]
  exact div_pos (by norm_num) hden

/-- Witness for C18: the corner point `(-5, -5, 5)` of the geometry generated with the
loop step `20`, rotated by the angles `(0, 0)`. -/
theorem rotated_denominator_pos_witness :
    (0 : ℝ) < 20 ∧ generatePoints (5 : ℝ) 20 3 = some (facePoints 5 (-5) (-5)) ∧
    (⟨-5, -5, 5⟩ : Vector3D ℝ) ∈ facePoints (5 : ℝ) (-5) (-5) ∧
    0 < (rotatePoint Real.sin Real.cos (⟨-5, -5, 5⟩ : Vector3D ℝ) 0 0).z + 100 :=
  ⟨by norm_num, generatePoints_step20, by simp [facePoints],
    (rotated_denominator_pos 20 (by norm_num) 3 (facePoints 5 (-5) (-5))
      generatePoints_step20 ⟨-5, -5, 5⟩ (by simp [facePoints]) 0 0).2.1⟩

/-- Claim C19: the `'.'` band is dead for the cube. For every point generated for the cube
(`size = 5`, camera at `z = -10`) and all angles, the depth of the rotated point lies
strictly between `1` and `19`, so `getLineChar` does not return `'.'` for it. -/
theorem cube_depth_never_dot (step : ℝ) (hstep : 0 < step) (fuel : Nat)
    (points : List (Vector3D ℝ)) (h : generatePoints (5 : ℝ) step fuel = some points)
    (p : Vector3D ℝ) (hp : p ∈ points) (ax ay : ℝ) :
    1 < getDepth (rotatePoint Real.sin Real.cos p ax ay) ∧
    getDepth (rotatePoint Real.sin Real.cos p ax ay) < 19 ∧
    getLineChar (getDepth (rotatePoint Real.sin Real.cos p ax ay)) ≠ '.' := by
  have hz := rotated_z_sq_le p (generated_onCubeSurface step hstep fuel points h p hp) ax ay
  have hlo : -9 < (rotatePoint Real.sin Real.cos p ax ay).z := by nlinarith [hz]
  have hhi : (rotatePoint Real.sin Real.cos p ax ay).z < 9 := by nlinarith [hz]
  have hdepth : getDepth (rotatePoint Real.sin Real.cos p ax ay) =
      (rotatePoint Real.sin Real.cos p ax ay).z + 10 := by
    simp only [getDepth, camera, sub_neg_eq_add]
    exact abs_of_pos (by linarith)
  have h19 : getDepth (rotatePoint Real.sin Real.cos p ax ay) < 19 := by
    rw [hdepth]; linarith
  refine ⟨by rw [hdepth]; linarith, h19, ?_⟩
  have hint : ¬ (1 - getDepth (rotatePoint Real.sin Real.cos p ax ay) / 30 < 2 / 10) := by
    have : getDepth (rotatePoint Real.sin Real.cos p ax ay) / 30 < 19 / 30 :=
      div_lt_div_of_pos_right h19 (by norm_num)
    linarith
  simp only [getLineChar, if_neg hint]
  split_ifs <;> decide

/-- Witness for C19: the corner point `(-5, -5, 5)` of the geometry generated with the
loop step `20`, rotated by the angles `(0, 0)`, is not shaded `'.'`. -/
theorem cube_depth_never_dot_witness :
    (0 : ℝ) < 20 ∧ generatePoints (5 : ℝ) 20 3 = some (facePoints 5 (-5) (-5)) ∧
    (⟨-5, -5, 5⟩ : Vector3D ℝ) ∈ facePoints (5 : ℝ) (-5) (-5) ∧
    getLineChar (getDepth (rotatePoint Real.sin Real.cos (⟨-5, -5, 5⟩ : Vector3D ℝ) 0 0))
      ≠ '.' :=
  ⟨by norm_num, generatePoints_step20, by simp [facePoints],
    (cube_depth_never_dot 20 (by norm_num) 3 (facePoints 5 (-5) (-5))
      generatePoints_step20 ⟨-5, -5, 5⟩ (by simp [facePoints]) 0 0).2.2⟩

end CubeBoundsTheorems

section OrderIndependenceTheorems

variable {α : Type} [LinearOrderedField α]

/-- The draw loop leaves a cell as it was when no point of the list is mapped to it. -/
theorem drawLoop_untouched {β : Type} (l : List (Point2D β)) (s : Screen) (y x : Int)
    (hmiss : ∀ p ∈ l, ¬ (p.x = x ∧ p.y = y)) : (drawLoop s l).cell y x = s.cell y x := by
  induction l generalizing s with
  | nil => rfl
  | cons a l ih =>
    have hstep : drawLoop s (a :: l) = drawLoop (mvaddch s a.y a.x a.c) l := rfl
    rw [hstep, ih _ (fun p hp => hmiss p (List.mem_cons_of_mem _ hp))]
    have ha := hmiss a (List.mem_cons_self _ _)
    unfold mvaddch
    split_ifs with hb
    · have hne : ¬ (y = a.y ∧ x = a.x) := fun hc => ha ⟨hc.2.symm, hc.1.symm⟩
      simp only [if_neg hne]
    · rfl

/-- Two drawing orders of the same points, both of non-increasing depth, give the same
cell contents when every point carries the glyph of its own depth. -/
theorem drawLoop_order_independent (width height : Int) (pts l1 l2 : List (Point2D α))
    (hin : ∀ p ∈ pts, 0 ≤ p.x ∧ p.x < width ∧ 0 ≤ p.y ∧ p.y < height)
    (hglyph : ∀ p ∈ pts, p.c = getLineChar p.depth)
    (h1 : l1.Perm pts) (h2 : l2.Perm pts)
    (s1 : l1.Pairwise (fun p q => q.depth ≤ p.depth))
    (s2 : l2.Pairwise (fun p q => q.depth ≤ p.depth)) (y x : Int) :
    (drawLoop (clear width height) l1).cell y x =
      (drawLoop (clear width height) l2).cell y x := by
  by_cases hhit : ∃ p ∈ pts, p.x = x ∧ p.y = y
  · obtain ⟨p, hp, hpxy⟩ := hhit
    obtain ⟨q1, hq1, hq1x, hq1y, hc1, hmin1⟩ :=
      drawLoop_nearest l1 (clear width height) s1 (fun r hr => hin r (h1.subset hr)) y x
        ⟨p, h1.symm.subset hp, hpxy⟩
    obtain ⟨q2, hq2, hq2x, hq2y, hc2, hmin2⟩ :=
      drawLoop_nearest l2 (clear width height) s2 (fun r hr => hin r (h2.subset hr)) y x
        ⟨p, h2.symm.subset hp, hpxy⟩
    have hle1 : q1.depth ≤ q2.depth :=
      hmin1 q2 (h1.symm.subset (h2.subset hq2)) hq2x hq2y
    have hle2 : q2.depth ≤ q1.depth :=
      hmin2 q1 (h2.symm.subset (h1.subset hq1)) hq1x hq1y
    rw [hc1, hc2, hglyph q1 (h1.subset hq1), hglyph q2 (h2.subset hq2),
      le_antisymm hle1 hle2]
  · have hmiss : ∀ l : List (Point2D α), l.Perm pts → ∀ p ∈ l, ¬ (p.x = x ∧ p.y = y) :=
      fun l hl p hp hxy => hhit ⟨p, hl.subset hp, hxy⟩
    rw [drawLoop_untouched l1 _ y x (hmiss l1 h1), drawLoop_untouched l2 _ y x (hmiss l2 h2)]

end OrderIndependenceTheorems

section FrameOrderTheorems

variable {α : Type} [LinearOrderedField α] [FloorRing α]

/-- Every point kept by the first loop of `render` is in bounds and carries the glyph
`getLineChar` of its own depth. -/
theorem projectLoop_glyph (sin cos : α → α) (width height : Int)
    (points : List (Vector3D α)) (angleX angleY : α) :
    ∀ q ∈ projectLoop sin cos width height points angleX angleY,
      (0 ≤ q.x ∧ q.x < width ∧ 0 ≤ q.y ∧ q.y < height) ∧ q.c = getLineChar q.depth := by
  intro q hq
  rw [projectLoop_eq_filter] at hq
  obtain ⟨hq1, hq2⟩ := List.mem_filter.mp hq
  obtain ⟨point, _, rfl⟩ := List.mem_map.mp hq1
  have hne : (project width height (rotatePoint sin cos point angleX angleY)).x ≠ -1 := by
    simpa using hq2
  refine ⟨(project_x_ne_sentinel_iff width height _).mp hne, ?_⟩
  by_cases h : screenX width (rotatePoint sin cos point angleX angleY) ≥ 0 ∧
      screenX width (rotatePoint sin cos point angleX angleY) < width ∧
      screenY height (rotatePoint sin cos point angleX angleY) ≥ 0 ∧
      screenY height (rotatePoint sin cos point angleX angleY) < height
  · rw [project_of_inBounds width height _ h]
  · rw [project_of_not_inBounds width height _ h] at hne
    exact absurd rfl hne

/-- Claim C20: the rendered frame does not depend on how the sort orders points of equal
depth. Any two orderings of the valid points of a frame that are non-increasing in depth
give the same cell contents, which are those of `render`, and each hit cell holds
`getLineChar` of the minimum depth among the points mapped to it. -/
theorem render_order_independent (sin cos : α → α) (width height : Int)
    (points : List (Vector3D α)) (angleX angleY : α) (l1 l2 : List (Point2D α))
    (h1 : l1.Perm (projectLoop sin cos width height points angleX angleY))
    (h2 : l2.Perm (projectLoop sin cos width height points angleX angleY))
    (s1 : l1.Pairwise (fun p q => q.depth ≤ p.depth))
    (s2 : l2.Pairwise (fun p q => q.depth ≤ p.depth)) :
    (∀ y x : Int, (drawLoop (clear width height) l1).cell y x =
      (drawLoop (clear width height) l2).cell y x) ∧
    (∀ y x : Int, (drawLoop (clear width height) l1).cell y x =
      (render sin cos width height points angleX angleY).cell y x) ∧
    (∀ y x : Int,
      (∃ p ∈ projectLoop sin cos width height points angleX angleY, p.x = x ∧ p.y = y) →
      ∃ q ∈ projectLoop sin cos width height points angleX angleY, q.x = x ∧ q.y = y ∧
        (∀ r ∈ projectLoop sin cos width height points angleX angleY,
          r.x = x → r.y = y → q.depth ≤ r.depth) ∧
        (drawLoop (clear width height) l1).cell y x = getLineChar q.depth) := by
  have hprop := projectLoop_glyph sin cos width height points angleX angleY
  have hin := fun p hp => (hprop p hp).1
  have hglyph := fun p hp => (hprop p hp).2
  refine ⟨?_, ?_, ?_⟩
  · intro y x
    exact drawLoop_order_independent width height _ l1 l2 hin hglyph h1 h2 s1 s2 y x
  · intro y x
    exact drawLoop_order_independent width height _ l1 _ hin hglyph h1 (stdSort_perm _) s1
      (stdSort_pairwise _) y x
  · intro y x hhit
    obtain ⟨p, hp, hpxy⟩ := hhit
    obtain ⟨q, hq, hqx, hqy, hc, hmin⟩ :=
      drawLoop_nearest l1 (clear width height) s1 (fun r hr => hin r (h1.subset hr)) y x
        ⟨p, h1.symm.subset hp, hpxy⟩
    exact ⟨q, h1.subset hq, hqx, hqy, fun r hr => hmin r (h1.symm.subset hr),
      by rw [hc, hglyph q (h1.subset hq)]⟩

/-- The valid points of the frame of two coincident geometry points, over `ℚ`, with the
sine and cosine of the angle `0`, on an 80 by 24 window. -/
theorem projectLoop_two_points :
    projectLoop (fun _ : ℚ => 0) (fun _ : ℚ => 1) 80 24
        [(⟨0, 0, 0⟩ : Vector3D ℚ), ⟨1 / 10, 0, 0⟩] 0 0 =
      [({ x := 40, y := 12, c := '#', depth := 10 } : Point2D ℚ),
        { x := 40, y := 12, c := '#', depth := 10 }] := by
  have hdiv1 : Int.tdiv 80 2 = 40 := rfl
  have hdiv2 : Int.tdiv 24 2 = 12 := rfl
  have hfloor : ⌊(10 : ℚ)⁻¹ * 2⌋ = 0 := by
    rw [Int.floor_eq_iff]
    norm_num
  simp [projectLoop, project, screenX, screenY, projectScale, toInt, rotatePoint, getDepth,
    camera, getLineChar, hdiv1, hdiv2]
  norm_num [hfloor]

/-- Witness for C20 over `ℚ`: a frame whose two valid points share the cell
`(row 12, column 40)` and the depth `10`; drawing them in list order gives the cell the
content that `render` gives it. -/
theorem render_order_independent_witness :
    (drawLoop (clear 80 24)
      [({ x := 40, y := 12, c := '#', depth := 10 } : Point2D ℚ),
        { x := 40, y := 12, c := '#', depth := 10 }]).cell 12 40 =
    (render (fun _ : ℚ => 0) (fun _ : ℚ => 1) 80 24
      [(⟨0, 0, 0⟩ : Vector3D ℚ), ⟨1 / 10, 0, 0⟩] 0 0).cell 12 40 :=
  (render_order_independent (fun _ : ℚ => 0) (fun _ : ℚ => 1) 80 24
    [(⟨0, 0, 0⟩ : Vector3D ℚ), ⟨1 / 10, 0, 0⟩] 0 0
    [({ x := 40, y := 12, c := '#', depth := 10 } : Point2D ℚ),
      { x := 40, y := 12, c := '#', depth := 10 }]
    [({ x := 40, y := 12, c := '#', depth := 10 } : Point2D ℚ),
      { x := 40, y := 12, c := '#', depth := 10 }]
    (by rw [projectLoop_two_points]) (by rw [projectLoop_two_points])
    (by simp) (by simp)).2.1 12 40

end FrameOrderTheorems

section Binary32Rounding

/-- Rounding to the nearest integer does not pass an integer above. -/
theorem F32.roundEven_le_of_le (q : ℚ) (n : Int) (h : q ≤ n) : F32.roundEven q ≤ n := by
  have hfl : ⌊q⌋ ≤ n := by
    have : ((⌊q⌋ : Int) : ℚ) ≤ n := (Int.floor_le q).trans h
    exact_mod_cast this
  have hup : 0 < q - ⌊q⌋ → ⌊q⌋ + 1 ≤ n := by
    intro hpos
    have : ((⌊q⌋ : Int) : ℚ) < n := by linarith
    have : ⌊q⌋ < n := by exact_mod_cast this
    omega
  unfold F32.roundEven
  split_ifs with h1 h2 h3
  · exact hfl
  · exact hup (by linarith)
  · exact hfl
  · exact hup (by linarith)

/-- Rounding to the nearest integer does not pass an integer below. -/
theorem F32.le_roundEven_of_le (q : ℚ) (n : Int) (h : (n : ℚ) ≤ q) : n ≤ F32.roundEven q := by
  have hfl : n ≤ ⌊q⌋ := Int.le_floor.mpr h
  unfold F32.roundEven
  split_ifs <;> omega

/-- An integer is its own rounding. -/
theorem F32.roundEven_intCast (n : Int) : F32.roundEven (n : ℚ) = n :=
  le_antisymm (F32.roundEven_le_of_le _ n le_rfl) (F32.le_roundEven_of_le _ n le_rfl)

/-- Rounding to the nearest integer moves a number by at most one half. -/
theorem F32.abs_roundEven_sub_le (q : ℚ) : |(F32.roundEven q : ℚ) - q| ≤ 1 / 2 := by
  have h0 : ((⌊q⌋ : Int) : ℚ) ≤ q := Int.floor_le q
  have h1 : q < ((⌊q⌋ : Int) : ℚ) + 1 := Int.lt_floor_add_one q
  unfold F32.roundEven
  split_ifs with h2 h3 h4
  · rw [abs_le]; constructor <;> linarith
  · push_cast; rw [abs_le]; constructor <;> linarith
  · rw [abs_le]; constructor <;> linarith
  · push_cast; rw [abs_le]; constructor <;> linarith

/-- A number strictly within one half of an integer rounds to that integer. -/
theorem F32.roundEven_eq_of_near (q : ℚ) (n : Int) (h1 : (n : ℚ) - 1 / 2 < q)
    (h2 : q < (n : ℚ) + 1 / 2) : F32.roundEven q = n := by
  have h := F32.abs_roundEven_sub_le q
  rw [abs_le] at h
  have hlt : ((F32.roundEven q : Int) : ℚ) < (n : ℚ) + 1 := by linarith
  have hgt : (n : ℚ) - 1 < ((F32.roundEven q : Int) : ℚ) := by linarith
  have hlt' : F32.roundEven q < n + 1 := by exact_mod_cast hlt
  have hgt' : n - 1 < F32.roundEven q := by exact_mod_cast hgt
  omega

/-- The binary32 exponent is at least `-126`. -/
theorem F32.exponent_ge (q : ℚ) : -126 ≤ F32.exponent q := by
  unfold F32.exponent
  split_ifs
  · exact le_rfl
  · exact le_max_right _ _

/-- A number lies below the next power of two above its exponent. -/
theorem F32.abs_lt_zpow_exponent (q : ℚ) : |q| < 2 ^ (F32.exponent q + 1) := by
  unfold F32.exponent
  split_ifs with h0
  · rw [h0, abs_zero]
    exact zpow_pos (by norm_num) _
  · have h := Int.lt_zpow_succ_log_self (b := 2) (by norm_num) |q|
    rw [Nat.cast_ofNat] at h
    exact lt_of_lt_of_le h
      (zpow_le_zpow_right₀ (by norm_num) (by have := le_max_left (Int.log 2 |q|) (-126); omega))

/-- A number whose absolute value is at least `2 ^ E` has exponent at least `E`. -/
theorem F32.le_exponent (q : ℚ) (E : Int) (h : 2 ^ E ≤ |q|) : E ≤ F32.exponent q := by
  have hpos : 0 < |q| := lt_of_lt_of_le (zpow_pos (by norm_num) E) h
  have h0 : q ≠ 0 := abs_pos.mp hpos
  have hlog : E ≤ Int.log 2 |q| := by
    rw [← Int.zpow_le_iff_le_log (by norm_num) hpos, Nat.cast_ofNat]
    exact h
  unfold F32.exponent
  rw [if_neg h0]
  exact hlog.trans (le_max_left _ _)

/-- A number whose absolute value is at most `2 ^ E`, with `E ≥ -126`, has exponent at
most `E`. -/
theorem F32.exponent_le (q : ℚ) (E : Int) (hE : -126 ≤ E) (h : |q| ≤ 2 ^ E) :
    F32.exponent q ≤ E := by
  unfold F32.exponent
  split_ifs with h0
  · exact hE
  · have hpos : 0 < |q| := abs_pos.mpr h0
    have hlt : |q| < ((2 : ℕ) : ℚ) ^ (E + 1) := by
      rw [Nat.cast_ofNat]
      exact lt_of_le_of_lt h (zpow_lt_zpow_right₀ (by norm_num) (by omega))
    have hlog : Int.log 2 |q| < E + 1 := (Int.lt_zpow_iff_log_lt (by norm_num) hpos).mp hlt
    exact max_le (by omega) hE

/-- In the normal range a number is at least the power of two of its exponent. -/
theorem F32.zpow_exponent_le (q : ℚ) (h : 2 ^ (-126 : Int) ≤ |q|) :
    2 ^ F32.exponent q ≤ |q| := by
  have hpos : 0 < |q| := lt_of_lt_of_le (zpow_pos (by norm_num) _) h
  have h0 : q ≠ 0 := abs_pos.mp hpos
  have hlog : (-126 : Int) ≤ Int.log 2 |q| := by
    rw [← Int.zpow_le_iff_le_log (by norm_num) hpos, Nat.cast_ofNat]
    exact h
  have hz := Int.zpow_log_le_self (b := 2) (by norm_num) hpos
  rw [Nat.cast_ofNat] at hz
  unfold F32.exponent
  rw [if_neg h0, max_eq_left hlog]
  exact hz

/-- The exponent of a number between two consecutive powers of two. -/
theorem F32.exponent_eq (q : ℚ) (e : Int) (he : -126 ≤ e) (hlo : 2 ^ e ≤ |q|)
    (hhi : |q| < 2 ^ (e + 1)) : F32.exponent q = e := by
  apply le_antisymm
  · by_contra hcon
    have h1 : e + 1 ≤ F32.exponent q := by omega
    have h2 : (2 : ℚ) ^ (-126 : Int) ≤ |q| :=
      (zpow_le_zpow_right₀ (by norm_num) he).trans hlo
    have h3 := F32.zpow_exponent_le q h2
    have h4 : (2 : ℚ) ^ (e + 1) ≤ 2 ^ F32.exponent q := zpow_le_zpow_right₀ (by norm_num) h1
    linarith
  · exact F32.le_exponent q e hlo

/-- The spacing of the binary32 values is positive. -/
theorem F32.ulp_pos (q : ℚ) : 0 < F32.ulp q :=
  zpow_pos (by norm_num) _

/-- Rounding to binary32 moves a number by at most half the local spacing. -/
theorem F32.abs_fl_sub_le (q : ℚ) : |F32.fl q - q| ≤ F32.ulp q / 2 := by
  have hu := F32.ulp_pos q
  have h := F32.abs_roundEven_sub_le (q / F32.ulp q)
  have heq : F32.fl q - q = ((F32.roundEven (q / F32.ulp q) : ℚ) - q / F32.ulp q) * F32.ulp q := by
    unfold F32.fl
    field_simp
  rw [heq, abs_mul, abs_of_pos hu]
  calc |(F32.roundEven (q / F32.ulp q) : ℚ) - q / F32.ulp q| * F32.ulp q
      ≤ 1 / 2 * F32.ulp q := mul_le_mul_of_nonneg_right h hu.le
    _ = F32.ulp q / 2 := by ring

/-- Rounding keeps a non-negative number non-negative. -/
theorem F32.fl_nonneg (q : ℚ) (h : 0 ≤ q) : 0 ≤ F32.fl q := by
  have hu := F32.ulp_pos q
  have hr : (0 : Int) ≤ F32.roundEven (q / F32.ulp q) :=
    F32.le_roundEven_of_le _ 0 (by simpa using div_nonneg h hu.le)
  unfold F32.fl
  exact mul_nonneg (by exact_mod_cast hr) hu.le

/-- Rounding keeps a non-positive number non-positive. -/
theorem F32.fl_nonpos (q : ℚ) (h : q ≤ 0) : F32.fl q ≤ 0 := by
  have hu := F32.ulp_pos q
  have hr : F32.roundEven (q / F32.ulp q) ≤ (0 : Int) :=
    F32.roundEven_le_of_le _ 0 (by simpa using div_nonpos_of_nonpos_of_nonneg h hu.le)
  unfold F32.fl
  exact mul_nonpos_of_nonpos_of_nonneg (by exact_mod_cast hr) hu.le

/-- Rounding does not pass a power of two above: `|q| ≤ 2 ^ E` gives `|fl q| ≤ 2 ^ E`. -/
theorem F32.abs_fl_le (q : ℚ) (E : Int) (hE : -126 ≤ E) (h : |q| ≤ 2 ^ E) :
    |F32.fl q| ≤ 2 ^ E := by
  have hu := F32.ulp_pos q
  have he := F32.exponent_le q E hE h
  obtain ⟨k, hk⟩ : ∃ k : Nat, (k : Int) = E - (F32.exponent q - 23) :=
    ⟨(E - (F32.exponent q - 23)).toNat, by omega⟩
  have hpow : (2 : ℚ) ^ E = ((2 ^ k : Int) : ℚ) * F32.ulp q := by
    unfold F32.ulp
    push_cast
    rw [← zpow_natCast, hk, ← zpow_add₀ (by norm_num)]
    congr 1
    ring
  have hq := abs_le.mp h
  have hup : F32.roundEven (q / F32.ulp q) ≤ (2 ^ k : Int) := by
    apply F32.roundEven_le_of_le
    rw [div_le_iff₀ hu, ← hpow]
    exact hq.2
  have hlo : -(2 ^ k : Int) ≤ F32.roundEven (q / F32.ulp q) := by
    apply F32.le_roundEven_of_le
    rw [le_div_iff₀ hu]
    push_cast
    have : -((2 : ℚ) ^ k) * F32.ulp q = -(2 ^ E) := by
      rw [hpow]; push_cast; ring
    rw [this]
    exact hq.1
  have hup' : (F32.roundEven (q / F32.ulp q) : ℚ) ≤ ((2 ^ k : Int) : ℚ) := by exact_mod_cast hup
  have hlo' : -((2 ^ k : Int) : ℚ) ≤ (F32.roundEven (q / F32.ulp q) : ℚ) := by
    exact_mod_cast hlo
  unfold F32.fl
  rw [hpow, abs_le]
  constructor
  · nlinarith
  · nlinarith

/-- Rounding does not pass a power of two below: `2 ^ E ≤ q` gives `2 ^ E ≤ fl q`, in the
normal range. -/
theorem F32.le_fl (q : ℚ) (E : Int) (hE : -126 ≤ E) (h : 2 ^ E ≤ q) : 2 ^ E ≤ F32.fl q := by
  have hu := F32.ulp_pos q
  have hq0 : 0 < q := lt_of_lt_of_le (zpow_pos (by norm_num) E) h
  have habs : |q| = q := abs_of_pos hq0
  have hle := F32.le_exponent q E (by rw [habs]; exact h)
  have hnorm : (2 : ℚ) ^ F32.exponent q ≤ q := by
    have := F32.zpow_exponent_le q
      (by rw [habs]; exact (zpow_le_zpow_right₀ (by norm_num) hE).trans h)
    rwa [habs] at this
  have hpow : (2 : ℚ) ^ F32.exponent q = ((2 ^ 23 : Int) : ℚ) * F32.ulp q := by
    unfold F32.ulp
    push_cast
    rw [zpow_sub₀ (by norm_num)]
    norm_num
    ring
  have hr : (2 ^ 23 : Int) ≤ F32.roundEven (q / F32.ulp q) := by
    apply F32.le_roundEven_of_le
    rw [le_div_iff₀ hu, ← hpow]
    exact hnorm
  have hr' : ((2 ^ 23 : Int) : ℚ) ≤ (F32.roundEven (q / F32.ulp q) : ℚ) := by exact_mod_cast hr
  calc (2 : ℚ) ^ E ≤ 2 ^ F32.exponent q := zpow_le_zpow_right₀ (by norm_num) hle
    _ = ((2 ^ 23 : Int) : ℚ) * F32.ulp q := hpow
    _ ≤ (F32.roundEven (q / F32.ulp q) : ℚ) * F32.ulp q :=
        mul_le_mul_of_nonneg_right hr' hu.le
    _ = F32.fl q := rfl

/-- The rounding error of a number of absolute value at most `2 ^ E`. -/
theorem F32.abs_fl_sub_le_zpow (q : ℚ) (E : Int) (hE : -126 ≤ E) (h : |q| ≤ 2 ^ E) :
    |F32.fl q - q| ≤ 2 ^ (E - 24) := by
  have he := F32.exponent_le q E hE h
  have h1 := F32.abs_fl_sub_le q
  have h2 : F32.ulp q / 2 ≤ 2 ^ (E - 24) := by
    have h3 : F32.ulp q ≤ 2 ^ (E - 23) := zpow_le_zpow_right₀ (by norm_num) (by omega)
    have h4 : (2 : ℚ) ^ (E - 23) = 2 ^ (E - 24) * 2 := by
      rw [← zpow_add_one₀ (by norm_num)]
      congr 1
      ring
    linarith
  exact h1.trans h2

/-- Evaluation of the rounding: a number in the binade of `e` whose quotient by the
spacing is strictly within one half of the integer `n` rounds to `n * 2 ^ (e - 23)`. -/
theorem F32.fl_eq (q : ℚ) (e n : Int) (he : -126 ≤ e) (hlo : 2 ^ e ≤ |q|)
    (hhi : |q| < 2 ^ (e + 1)) (h1 : (n : ℚ) - 1 / 2 < q / 2 ^ (e - 23))
    (h2 : q / 2 ^ (e - 23) < (n : ℚ) + 1 / 2) : F32.fl q = n * 2 ^ (e - 23) := by
  unfold F32.fl F32.ulp
  rw [F32.exponent_eq q e he hlo hhi, F32.roundEven_eq_of_near _ n h1 h2]

end Binary32Rounding

section Binary32Shader

/-- The literal `0.2f`. -/
theorem F32.fl_two_tenths : F32.fl (2 / 10) = 13421773 / 67108864 := by
  rw [F32.fl_eq (2 / 10) (-3) 13421773 (by norm_num) (by norm_num [abs_of_pos])
    (by norm_num [abs_of_pos]) (by norm_num) (by norm_num)]
  norm_num

/-- The literal `0.4f`. -/
theorem F32.fl_four_tenths : F32.fl (4 / 10) = 13421773 / 33554432 := by
  rw [F32.fl_eq (4 / 10) (-2) 13421773 (by norm_num) (by norm_num [abs_of_pos])
    (by norm_num [abs_of_pos]) (by norm_num) (by norm_num)]
  norm_num

/-- The literal `0.6f`. -/
theorem F32.fl_six_tenths : F32.fl (6 / 10) = 10066330 / 16777216 := by
  rw [F32.fl_eq (6 / 10) (-1) 10066330 (by norm_num) (by norm_num [abs_of_pos])
    (by norm_num [abs_of_pos]) (by norm_num) (by norm_num)]
  norm_num

/-- The literal `0.8f`. -/
theorem F32.fl_eight_tenths : F32.fl (8 / 10) = 13421773 / 16777216 := by
  rw [F32.fl_eq (8 / 10) (-1) 13421773 (by norm_num) (by norm_num [abs_of_pos])
    (by norm_num [abs_of_pos]) (by norm_num) (by norm_num)]
  norm_num

/-- Zero is a binary32 value. -/
theorem F32.fl_zero : F32.fl 0 = 0 := by
  have h1 := F32.fl_nonneg 0 le_rfl
  have h2 := F32.fl_nonpos 0 le_rfl
  exact le_antisymm h2 h1

/-- One is a binary32 value. -/
theorem F32.fl_one : F32.fl 1 = 1 := by
  rw [F32.fl_eq 1 0 8388608 (by norm_num) (by norm_num) (by norm_num) (by norm_num)
    (by norm_num)]
  norm_num

/-- One half is a binary32 value. -/
theorem F32.fl_half : F32.fl (1 / 2) = 1 / 2 := by
  rw [F32.fl_eq (1 / 2) (-1) 8388608 (by norm_num) (by norm_num [abs_of_pos])
    (by norm_num [abs_of_pos]) (by norm_num) (by norm_num)]
  norm_num

/-- The binary32 intensity at depth `18`: `1 - 0.6f`, just below `0.4f`. -/
theorem F32.intensity_18 : F32.fl (1 - F32.fl (18 / 30)) = 13421772 / 33554432 := by
  have h : (18 : ℚ) / 30 = 6 / 10 := by norm_num
  rw [h, F32.fl_six_tenths,
    F32.fl_eq (1 - 10066330 / 16777216) (-2) 13421772 (by norm_num)
      (by norm_num [abs_of_pos]) (by norm_num [abs_of_pos]) (by norm_num) (by norm_num)]
  norm_num

/-- The binary32 intensity at depth `24`: `1 - 0.8f`, just below `0.2f`. -/
theorem F32.intensity_24 : F32.fl (1 - F32.fl (24 / 30)) = 13421772 / 67108864 := by
  have h : (24 : ℚ) / 30 = 8 / 10 := by norm_num
  rw [h, F32.fl_eight_tenths,
    F32.fl_eq (1 - 13421773 / 16777216) (-3) 13421772 (by norm_num)
      (by norm_num [abs_of_pos]) (by norm_num [abs_of_pos]) (by norm_num) (by norm_num)]
  norm_num

/-- In binary32 the depth `18` is shaded `'+'`. -/
theorem F32.getLineChar_18 : F32.getLineChar 18 = '+' := by
  simp only [F32.getLineChar, F32.intensity_18, F32.fl_two_tenths, F32.fl_four_tenths]
  norm_num

/-- In binary32 the depth `24` is shaded `'.'`. -/
theorem F32.getLineChar_24 : F32.getLineChar 24 = '.' := by
  simp only [F32.getLineChar, F32.intensity_24, F32.fl_two_tenths]
  norm_num

/-- In binary32 the depths `0`, `15` and `30` are shaded `'='`, `'*'` and `'.'`. -/
theorem F32.getLineChar_samples :
    F32.getLineChar 0 = '=' ∧ F32.getLineChar 15 = '*' ∧ F32.getLineChar 30 = '.' := by
  have h15 : (15 : ℚ) / 30 = 1 / 2 := by norm_num
  have h30 : (30 : ℚ) / 30 = 1 := by norm_num
  have hsub : (1 : ℚ) - 1 / 2 = 1 / 2 := by norm_num
  refine ⟨?_, ?_, ?_⟩
  · simp only [F32.getLineChar, zero_div, F32.fl_zero, sub_zero, F32.fl_one,
      F32.fl_two_tenths, F32.fl_four_tenths, F32.fl_six_tenths, F32.fl_eight_tenths]
    norm_num
  · simp only [F32.getLineChar, h15, F32.fl_half, hsub,
      F32.fl_two_tenths, F32.fl_four_tenths, F32.fl_six_tenths, F32.fl_eight_tenths]
    norm_num
  · simp only [F32.getLineChar, h30, F32.fl_one, sub_self, F32.fl_zero,
      F32.fl_two_tenths]
    norm_num

/-- For a depth in `[0, 30]` the binary32 intensity is within `2 ^ (-23)` of the exact
intensity `1 - d / 30`. -/
theorem F32.intensity_error (d : ℚ) (h0 : 0 ≤ d) (h30 : d ≤ 30) :
    |F32.fl (1 - F32.fl (d / 30)) - (1 - d / 30)| ≤ 1 / 2 ^ 23 := by
  have hq0 : 0 ≤ d / 30 := by positivity
  have hq1 : d / 30 ≤ 1 := by
    rw [div_le_iff₀ (by norm_num)]
    linarith
  have habs : |d / 30| ≤ (2 : ℚ) ^ (0 : Int) := by
    rw [abs_of_nonneg hq0]
    simpa using hq1
  have he1 := F32.abs_fl_sub_le_zpow (d / 30) 0 (by norm_num) habs
  have ha0 := F32.fl_nonneg (d / 30) hq0
  have ha1 := F32.abs_fl_le (d / 30) 0 (by norm_num) habs
  rw [abs_of_nonneg ha0] at ha1
  have ha1' : F32.fl (d / 30) ≤ 1 := by simpa using ha1
  have hy : |1 - F32.fl (d / 30)| ≤ (2 : ℚ) ^ (0 : Int) := by
    rw [abs_of_nonneg (by linarith)]
    simp only [zpow_zero]
    linarith
  have he2 := F32.abs_fl_sub_le_zpow (1 - F32.fl (d / 30)) 0 (by norm_num) hy
  have hpow : (2 : ℚ) ^ ((0 : Int) - 24) = 1 / 2 ^ 24 := by norm_num
  rw [hpow] at he1 he2
  rw [abs_le] at he1 he2 ⊢
  obtain ⟨h1a, h1b⟩ := he1
  obtain ⟨h2a, h2b⟩ := he2
  constructor <;> norm_num at h1a h1b h2a h2b ⊢ <;> linarith

/-- A binary32 intensity of at least one is shaded `'='`. -/
theorem F32.getLineChar_of_neg (d : ℚ) (hd : d < 0) : F32.getLineChar d = '=' := by
  have hq : d / 30 ≤ 0 := (div_neg_of_neg_of_pos hd (by norm_num)).le
  have ha := F32.fl_nonpos (d / 30) hq
  have hy : (2 : ℚ) ^ (0 : Int) ≤ 1 - F32.fl (d / 30) := by
    simp only [zpow_zero]
    linarith
  have hI := F32.le_fl (1 - F32.fl (d / 30)) 0 (by norm_num) hy
  simp only [zpow_zero] at hI
  simp only [F32.getLineChar, F32.fl_two_tenths, F32.fl_four_tenths, F32.fl_six_tenths,
    F32.fl_eight_tenths]
  rw [if_neg (by linarith), if_neg (by linarith), if_neg (by linarith), if_neg (by linarith)]

/-- A depth beyond `30`, whose exact intensity is negative, is shaded `'.'` in binary32. -/
theorem F32.getLineChar_of_far (d : ℚ) (hd : 30 < d) : F32.getLineChar d = '.' := by
  have hq : (2 : ℚ) ^ (0 : Int) ≤ d / 30 := by
    simp only [zpow_zero]
    rw [le_div_iff₀ (by norm_num)]
    linarith
  have ha := F32.le_fl (d / 30) 0 (by norm_num) hq
  simp only [zpow_zero] at ha
  have hI := F32.fl_nonpos (1 - F32.fl (d / 30)) (by linarith)
  simp only [F32.getLineChar, F32.fl_two_tenths]
  rw [if_pos (by linarith)]

/-- The binary32 shader returns the glyph of the exact threshold table whenever the exact
intensity is at least `2 ^ (-22)` away from each threshold. -/
theorem F32.getLineChar_eq_table (d : ℚ)
    (hm : ∀ t ∈ [(2 : ℚ) / 10, 4 / 10, 6 / 10, 8 / 10], 1 / 2 ^ 22 ≤ |1 - d / 30 - t|) :
    F32.getLineChar d = glyphOfIntensity (1 - d / 30) := by
  rcases lt_or_le d 0 with hneg | h0
  · rw [F32.getLineChar_of_neg d hneg]
    have hI : 1 < 1 - d / 30 := by
      have := div_neg_of_neg_of_pos hneg (by norm_num : (0 : ℚ) < 30)
      linarith
    simp only [glyphOfIntensity]
    rw [if_neg (by linarith), if_neg (by linarith), if_neg (by linarith),
      if_neg (by linarith)]
  · rcases lt_or_le 30 d with hfar | h30
    · rw [F32.getLineChar_of_far d hfar]
      have hI : 1 - d / 30 < 0 := by
        have : 1 < d / 30 := by
          rw [lt_div_iff₀ (by norm_num)]
          linarith
        linarith
      simp only [glyphOfIntensity]
      rw [if_pos (by linarith)]
    · have herr := abs_le.mp (F32.intensity_error d h0 h30)
      have h2 := le_abs'.mp (hm (2 / 10) (by simp))
      have h4 := le_abs'.mp (hm (4 / 10) (by simp))
      have h6 := le_abs'.mp (hm (6 / 10) (by simp))
      have h8 := le_abs'.mp (hm (8 / 10) (by simp))
      have e2 : F32.fl (1 - F32.fl (d / 30)) < 13421773 / 67108864 ↔ 1 - d / 30 < 2 / 10 := by
        rcases h2 with h | h
        · exact ⟨fun _ => by linarith, fun _ => by linarith⟩
        · exact ⟨fun hc => by linarith, fun hc => by linarith⟩
      have e4 : F32.fl (1 - F32.fl (d / 30)) < 13421773 / 33554432 ↔ 1 - d / 30 < 4 / 10 := by
        rcases h4 with h | h
        · exact ⟨fun _ => by linarith, fun _ => by linarith⟩
        · exact ⟨fun hc => by linarith, fun hc => by linarith⟩
      have e6 : F32.fl (1 - F32.fl (d / 30)) < 10066330 / 16777216 ↔ 1 - d / 30 < 6 / 10 := by
        rcases h6 with h | h
        · exact ⟨fun _ => by linarith, fun _ => by linarith⟩
        · exact ⟨fun hc => by linarith, fun hc => by linarith⟩
      have e8 : F32.fl (1 - F32.fl (d / 30)) < 13421773 / 16777216 ↔ 1 - d / 30 < 8 / 10 := by
        rcases h8 with h | h
        · exact ⟨fun _ => by linarith, fun _ => by linarith⟩
        · exact ⟨fun hc => by linarith, fun hc => by linarith⟩
      simp only [F32.getLineChar, glyphOfIntensity, F32.fl_two_tenths, F32.fl_four_tenths,
        F32.fl_six_tenths, F32.fl_eight_tenths, e2, e4, e6, e8]

/-- Counterexample for C2: at depth `18` the exact intensity is `0.4`, for which the
threshold table gives `'*'`, but the binary32 intensity `1 - 0.6f` lies below `0.4f` and
`getLineChar` returns `'+'`. -/
theorem getLineChar_not_table_at_18 :
    F32.fl 18 = 18 ∧ (1 : ℚ) - 18 / 30 = 4 / 10 ∧
    glyphOfIntensity ((1 : ℚ) - 18 / 30) = '*' ∧
    F32.getLineChar 18 = '+' ∧
    F32.getLineChar 18 ≠ glyphOfIntensity ((1 : ℚ) - 18 / 30) := by
  have hfl : F32.fl 18 = 18 := by
    rw [F32.fl_eq 18 4 9437184 (by norm_num) (by norm_num) (by norm_num) (by norm_num)
      (by norm_num)]
    norm_num
  have htab : glyphOfIntensity ((1 : ℚ) - 18 / 30) = '*' := by
    simp only [glyphOfIntensity]
    norm_num
  refine ⟨hfl, by norm_num, htab, F32.getLineChar_18, ?_⟩
  rw [F32.getLineChar_18, htab]
  decide

/-- Claim C2 (amended): in binary32, `getLineChar d` returns the glyph that the threshold
table assigns to the exact intensity `1 - d / 30` whenever that intensity is at least
`2 ^ (-22)` away from each of the thresholds `0.2`, `0.4`, `0.6`, `0.8`; it is total, a
negative intensity gives `'.'`, and the depths `0`, `15`, `30` give `'='`, `'*'`, `'.'`.
At a threshold the rounding decides: the depths `18` and `24` give `'+'` and `'.'`. -/
theorem getLineChar_binary32_table :
    (∀ d : ℚ,
      (∀ t ∈ [(2 : ℚ) / 10, 4 / 10, 6 / 10, 8 / 10], 1 / 2 ^ 22 ≤ |1 - d / 30 - t|) →
      F32.getLineChar d = glyphOfIntensity (1 - d / 30)) ∧
    (∀ d : ℚ, 1 - d / 30 < 0 → F32.getLineChar d = '.') ∧
    F32.getLineChar 0 = '=' ∧ F32.getLineChar 15 = '*' ∧ F32.getLineChar 30 = '.' ∧
    F32.getLineChar 18 = '+' ∧ F32.getLineChar 24 = '.' := by
  refine ⟨F32.getLineChar_eq_table, ?_, F32.getLineChar_samples.1,
    F32.getLineChar_samples.2.1, F32.getLineChar_samples.2.2, F32.getLineChar_18,
    F32.getLineChar_24⟩
  intro d hd
  apply F32.getLineChar_of_far
  have : 1 < d / 30 := by linarith
  rw [lt_div_iff₀ (by norm_num)] at this
  linarith

/-- Witness for C2 (amended) at the depth `10`, whose exact intensity `2/3` is away from
every threshold: the binary32 shader returns the glyph `'#'` of the table. -/
theorem getLineChar_binary32_table_witness :
    (∀ t ∈ [(2 : ℚ) / 10, 4 / 10, 6 / 10, 8 / 10], 1 / 2 ^ 22 ≤ |1 - (10 : ℚ) / 30 - t|) ∧
    F32.getLineChar 10 = glyphOfIntensity ((1 : ℚ) - 10 / 30) ∧
    glyphOfIntensity ((1 : ℚ) - 10 / 30) = '#' := by
  have hm : ∀ t ∈ [(2 : ℚ) / 10, 4 / 10, 6 / 10, 8 / 10],
      1 / 2 ^ 22 ≤ |1 - (10 : ℚ) / 30 - t| := by
    intro t ht
    simp only [List.mem_cons, List.mem_singleton, List.not_mem_nil, or_false] at ht
    rcases ht with rfl | rfl | rfl | rfl
    · rw [abs_of_pos (by norm_num)]; norm_num
    · rw [abs_of_pos (by norm_num)]; norm_num
    · rw [abs_of_pos (by norm_num)]; norm_num
    · rw [abs_of_neg (by norm_num)]; norm_num
  refine ⟨hm, getLineChar_binary32_table.1 10 hm, ?_⟩
  simp only [glyphOfIntensity]
  norm_num

end Binary32Shader

section Binary32Projection

/-- A binary32 operation whose rounded result is in range returns that result. -/
theorem F32.op_eq_some (q v : ℚ) (h : F32.fl q = v) (hv : |v| < 2 ^ 128) :
    F32.op q = some v := by
  unfold F32.op
  rw [h, if_pos hv]

/-- A binary32 operation on a result of absolute value at most `2 ^ E`, `E < 128`, is
defined, and its result is bounded in the same way. -/
theorem F32.op_of_abs_le (q : ℚ) (E : Int) (hE : -126 ≤ E) (hE' : E < 128)
    (h : |q| ≤ 2 ^ E) : F32.op q = some (F32.fl q) ∧ |F32.fl q| ≤ 2 ^ E := by
  have hb := F32.abs_fl_le q E hE h
  refine ⟨F32.op_eq_some q _ rfl ?_, hb⟩
  have hlt : (2 : ℚ) ^ E < 2 ^ (128 : Int) := zpow_lt_zpow_right₀ (by norm_num) hE'
  have h128 : (2 : ℚ) ^ (128 : Int) = 2 ^ 128 := by norm_num
  linarith

/-- The binary32 scale at `z = 0` is `1`. -/
theorem F32.projectScale_z0 (x y : ℚ) : F32.projectScale ⟨x, y, 0⟩ = some 1 := by
  have h100 : F32.fl 100 = 100 := by
    rw [F32.fl_eq 100 6 13107200 (by norm_num) (by norm_num) (by norm_num)
      (by norm_num) (by norm_num)]
    norm_num
  have hop : F32.op 100 = some 100 := F32.op_eq_some _ _ h100 (by norm_num)
  have hdiv : F32.op 1 = some 1 := F32.op_eq_some _ _ F32.fl_one (by norm_num)
  simp [F32.projectScale, hop, hdiv]

/-- The conversion of the integer halves `80 / 2` and `24 / 2` to binary32 is exact. -/
theorem F32.fl_halves :
    F32.fl ((Int.tdiv 80 2 : Int) : ℚ) = 40 ∧ F32.fl ((Int.tdiv 24 2 : Int) : ℚ) = 12 := by
  have h1 : Int.tdiv 80 2 = 40 := rfl
  have h2 : Int.tdiv 24 2 = 12 := rfl
  rw [h1, h2]
  constructor
  · rw [F32.fl_eq _ 5 10485760 (by norm_num) (by norm_num) (by norm_num) (by norm_num)
      (by norm_num)]
    norm_num
  · rw [F32.fl_eq _ 3 12582912 (by norm_num) (by norm_num) (by norm_num) (by norm_num)
      (by norm_num)]
    norm_num

/-- Truncation of a value between the integer `n ≥ 0` and `n + 1`. -/
theorem F32.toInt_eq (v : ℚ) (n : Int) (h0 : 0 ≤ n) (h1 : (n : ℚ) ≤ v) (h2 : v < (n : ℚ) + 1)
    (hn : n < 2 ^ 31) : F32.toInt v = some n := by
  have hv : 0 ≤ v := le_trans (by exact_mod_cast h0) h1
  have ht : Engine3D.toInt v = n := by
    unfold Engine3D.toInt
    rw [if_pos hv, Int.floor_eq_iff]
    exact ⟨h1, h2⟩
  unfold F32.toInt
  rw [ht, if_pos ⟨by omega, hn⟩]

/-- In binary32 the point `(0.4f, 0, 0)` is drawn in column `40` of an 80-column display:
the coordinate `40.8` is not rounded to the nearest integer. -/
theorem F32.screenX_04 : F32.screenX 80 ⟨13421773 / 33554432, 0, 0⟩ = some 40 := by
  have hs := F32.projectScale_z0 (13421773 / 33554432) 0
  have h1 : F32.op (13421773 / 33554432) = some (13421773 / 33554432) :=
    F32.op_eq_some _ _
      (by
        rw [F32.fl_eq _ (-2) 13421773 (by norm_num) (by norm_num [abs_of_pos])
          (by norm_num [abs_of_pos]) (by norm_num) (by norm_num)]
        norm_num)
      (by norm_num [abs_of_pos])
  have h2 : F32.op (13421773 / 33554432 * 2) = some (13421773 / 16777216) :=
    F32.op_eq_some _ _
      (by
        rw [F32.fl_eq _ (-1) 13421773 (by norm_num) (by norm_num [abs_of_pos])
          (by norm_num [abs_of_pos]) (by norm_num) (by norm_num)]
        norm_num)
      (by norm_num [abs_of_pos])
  have h3 : F32.op (13421773 / 16777216 + 40) = some (10695475 / 262144) :=
    F32.op_eq_some _ _
      (by
        rw [F32.fl_eq _ 5 10695475 (by norm_num) (by norm_num [abs_of_pos])
          (by norm_num [abs_of_pos]) (by norm_num) (by norm_num)]
        norm_num)
      (by norm_num [abs_of_pos])
  have h4 : F32.toInt (10695475 / 262144) = some 40 :=
    F32.toInt_eq _ 40 (by norm_num) (by norm_num) (by norm_num) (by norm_num)
  simp only [F32.screenX, F32.coordX, hs, F32.fl_halves.1, Option.bind_eq_bind,
    Option.some_bind, mul_one, h1, h2, h3, h4]

/-- In binary32 the point with `x = 0.49999997f` (the value below `0.5`) is drawn in
column `41`: the sum `40.99999994` is rounded to `41.0f` before the cast. -/
theorem F32.screenX_below_half :
    F32.coordX 80 ⟨16777215 / 33554432, 0, 0⟩ = some 41 ∧
    F32.screenX 80 ⟨16777215 / 33554432, 0, 0⟩ = some 41 := by
  have hs := F32.projectScale_z0 (16777215 / 33554432) 0
  have h1 : F32.op (16777215 / 33554432) = some (16777215 / 33554432) :=
    F32.op_eq_some _ _
      (by
        rw [F32.fl_eq _ (-2) 16777215 (by norm_num) (by norm_num [abs_of_pos])
          (by norm_num [abs_of_pos]) (by norm_num) (by norm_num)]
        norm_num)
      (by norm_num [abs_of_pos])
  have h2 : F32.op (16777215 / 33554432 * 2) = some (16777215 / 16777216) :=
    F32.op_eq_some _ _
      (by
        rw [F32.fl_eq _ (-1) 16777215 (by norm_num) (by norm_num [abs_of_pos])
          (by norm_num [abs_of_pos]) (by norm_num) (by norm_num)]
        norm_num)
      (by norm_num [abs_of_pos])
  have h3 : F32.op (16777215 / 16777216 + 40) = some 41 :=
    F32.op_eq_some _ _
      (by
        rw [F32.fl_eq _ 5 10747904 (by norm_num) (by norm_num [abs_of_pos])
          (by norm_num [abs_of_pos]) (by norm_num) (by norm_num)]
        norm_num)
      (by norm_num [abs_of_pos])
  have h4 : F32.toInt 41 = some 41 :=
    F32.toInt_eq _ 41 (by norm_num) (by norm_num) (by norm_num) (by norm_num)
  have hc : F32.coordX 80 ⟨16777215 / 33554432, 0, 0⟩ = some 41 := by
    simp only [F32.coordX, hs, F32.fl_halves.1, Option.bind_eq_bind,
      Option.some_bind, mul_one, h1, h2, h3]
  refine ⟨hc, ?_⟩
  simp only [F32.screenX, hc, Option.some_bind, h4]

/-- In binary32 the point with `y = 0.99999994f` (the value below `1`) is drawn in row
`13` of a 24-row display: the sum `12.99999994` is rounded to `13.0f` before the cast. -/
theorem F32.screenY_below_one :
    F32.coordY 24 ⟨0, 16777215 / 16777216, 0⟩ = some 13 ∧
    F32.screenY 24 ⟨0, 16777215 / 16777216, 0⟩ = some 13 := by
  have hs := F32.projectScale_z0 0 (16777215 / 16777216)
  have h1 : F32.op (16777215 / 16777216) = some (16777215 / 16777216) :=
    F32.op_eq_some _ _
      (by
        rw [F32.fl_eq _ (-1) 16777215 (by norm_num) (by norm_num [abs_of_pos])
          (by norm_num [abs_of_pos]) (by norm_num) (by norm_num)]
        norm_num)
      (by norm_num [abs_of_pos])
  have h3 : F32.op (16777215 / 16777216 + 12) = some 13 :=
    F32.op_eq_some _ _
      (by
        rw [F32.fl_eq _ 3 13631488 (by norm_num) (by norm_num [abs_of_pos])
          (by norm_num [abs_of_pos]) (by norm_num) (by norm_num)]
        norm_num)
      (by norm_num [abs_of_pos])
  have h4 : F32.toInt 13 = some 13 :=
    F32.toInt_eq _ 13 (by norm_num) (by norm_num) (by norm_num) (by norm_num)
  have hc : F32.coordY 24 ⟨0, 16777215 / 16777216, 0⟩ = some 13 := by
    simp only [F32.coordY, hs, F32.fl_halves.2, Option.bind_eq_bind,
      Option.some_bind, mul_one, h1, h3]
  refine ⟨hc, ?_⟩
  simp only [F32.screenY, hc, Option.some_bind, h4]

/-- The cast truncates the binary32 value toward zero. -/
theorem F32.toInt_some_truncates (v : ℚ) (x : Int) (h : F32.toInt v = some x) :
    |(x : ℚ)| ≤ |v| ∧ |v - (x : ℚ)| < 1 := by
  unfold F32.toInt at h
  split_ifs at h
  cases h
  exact Engine3D.toInt_truncates v

/-- For a denominator in `[1, 2 ^ 20]` the binary32 scale is defined and at most `128`. -/
theorem F32.projectScale_defined (p : Vector3D ℚ) (hz1 : 1 ≤ p.z + 100)
    (hz2 : p.z + 100 ≤ 2 ^ 20) :
    ∃ scale, F32.projectScale p = some scale ∧ |scale| ≤ 128 := by
  have hden : |p.z + 100| ≤ (2 : ℚ) ^ (20 : Int) := by
    rw [abs_of_pos (by linarith)]
    norm_num
    linarith
  obtain ⟨hop1, _⟩ := F32.op_of_abs_le (p.z + 100) 20 (by norm_num) (by norm_num) hden
  have hge : (1 : ℚ) ≤ F32.fl (p.z + 100) := by
    have := F32.le_fl (p.z + 100) 0 (by norm_num) (by simpa using hz1)
    simpa using this
  have hne : F32.fl (p.z + 100) ≠ 0 := by linarith
  have hq : |100 / F32.fl (p.z + 100)| ≤ (2 : ℚ) ^ (7 : Int) := by
    have hpos : 0 < 100 / F32.fl (p.z + 100) := div_pos (by norm_num) (by linarith)
    rw [abs_of_pos hpos, div_le_iff₀ (by linarith)]
    norm_num
    linarith
  obtain ⟨hop2, hb2⟩ := F32.op_of_abs_le _ 7 (by norm_num) (by norm_num) hq
  refine ⟨F32.fl (100 / F32.fl (p.z + 100)), ?_, by norm_num at hb2; exact hb2⟩
  simp only [F32.projectScale, hop1, Option.bind_eq_bind, Option.some_bind, if_neg hne, hop2]

/-- The column is defined for inputs in range: denominator in `[1, 2 ^ 20]`, `|p.x|` and
`|width / 2|` at most `2 ^ 20`. -/
theorem F32.screenX_defined (width : Int) (p : Vector3D ℚ) (hz1 : 1 ≤ p.z + 100)
    (hz2 : p.z + 100 ≤ 2 ^ 20) (hx : |p.x| ≤ 2 ^ 20)
    (hw : |((Int.tdiv width 2 : Int) : ℚ)| ≤ 2 ^ 20) :
    ∃ x, F32.screenX width p = some x := by
  obtain ⟨scale, hs, hsb⟩ := F32.projectScale_defined p hz1 hz2
  have h1 : |p.x * scale| ≤ (2 : ℚ) ^ (27 : Int) := by
    rw [abs_mul]
    have := mul_le_mul hx hsb (abs_nonneg _) (by norm_num)
    norm_num at this ⊢
    exact this
  obtain ⟨hop1, hb1⟩ := F32.op_of_abs_le _ 27 (by norm_num) (by norm_num) h1
  have h2 : |F32.fl (p.x * scale) * 2| ≤ (2 : ℚ) ^ (28 : Int) := by
    rw [abs_mul, abs_of_pos (by norm_num : (0 : ℚ) < 2)]
    norm_num at hb1 ⊢
    linarith
  obtain ⟨hop2, hb2⟩ := F32.op_of_abs_le _ 28 (by norm_num) (by norm_num) h2
  have hh : |F32.fl ((Int.tdiv width 2 : Int) : ℚ)| ≤ (2 : ℚ) ^ (20 : Int) :=
    F32.abs_fl_le _ 20 (by norm_num) (by norm_num; norm_num at hw; exact hw)
  have h3 : |F32.fl (F32.fl (p.x * scale) * 2) + F32.fl ((Int.tdiv width 2 : Int) : ℚ)| ≤
      (2 : ℚ) ^ (29 : Int) := by
    have := abs_add (F32.fl (F32.fl (p.x * scale) * 2))
      (F32.fl ((Int.tdiv width 2 : Int) : ℚ))
    norm_num at hb2 hh this ⊢
    linarith
  obtain ⟨hop3, hb3⟩ := F32.op_of_abs_le _ 29 (by norm_num) (by norm_num) h3
  have htr := (Engine3D.toInt_truncates
    (F32.fl (F32.fl (F32.fl (p.x * scale) * 2) + F32.fl ((Int.tdiv width 2 : Int) : ℚ)))).1
  have hint : |((Engine3D.toInt
      (F32.fl (F32.fl (F32.fl (p.x * scale) * 2) + F32.fl ((Int.tdiv width 2 : Int) : ℚ))) :
        Int) : ℚ)| ≤ 536870912 := by
    norm_num at hb3
    linarith
  have hint' : |Engine3D.toInt
      (F32.fl (F32.fl (F32.fl (p.x * scale) * 2) + F32.fl ((Int.tdiv width 2 : Int) : ℚ)))|
        ≤ 536870912 := by
    exact_mod_cast hint
  rw [abs_le] at hint'
  have hsx : F32.screenX width p = F32.toInt
      (F32.fl (F32.fl (F32.fl (p.x * scale) * 2) + F32.fl ((Int.tdiv width 2 : Int) : ℚ))) := by
    simp only [F32.screenX, F32.coordX, hs, Option.bind_eq_bind, Option.some_bind, hop1,
      hop2, hop3]
  refine ⟨Engine3D.toInt
    (F32.fl (F32.fl (F32.fl (p.x * scale) * 2) + F32.fl ((Int.tdiv width 2 : Int) : ℚ))), ?_⟩
  rw [hsx]
  unfold F32.toInt
  rw [if_pos ⟨by omega, by omega⟩]

/-- The row is defined for inputs in range: denominator in `[1, 2 ^ 20]`, `|p.y|` and
`|height / 2|` at most `2 ^ 20`. -/
theorem F32.screenY_defined (height : Int) (p : Vector3D ℚ) (hz1 : 1 ≤ p.z + 100)
    (hz2 : p.z + 100 ≤ 2 ^ 20) (hy : |p.y| ≤ 2 ^ 20)
    (hh : |((Int.tdiv height 2 : Int) : ℚ)| ≤ 2 ^ 20) :
    ∃ y, F32.screenY height p = some y := by
  obtain ⟨scale, hs, hsb⟩ := F32.projectScale_defined p hz1 hz2
  have h1 : |p.y * scale| ≤ (2 : ℚ) ^ (27 : Int) := by
    rw [abs_mul]
    have := mul_le_mul hy hsb (abs_nonneg _) (by norm_num)
    norm_num at this ⊢
    exact this
  obtain ⟨hop1, hb1⟩ := F32.op_of_abs_le _ 27 (by norm_num) (by norm_num) h1
  have hhalf : |F32.fl ((Int.tdiv height 2 : Int) : ℚ)| ≤ (2 : ℚ) ^ (20 : Int) :=
    F32.abs_fl_le _ 20 (by norm_num) (by norm_num; norm_num at hh; exact hh)
  have h3 : |F32.fl (p.y * scale) + F32.fl ((Int.tdiv height 2 : Int) : ℚ)| ≤
      (2 : ℚ) ^ (28 : Int) := by
    have := abs_add (F32.fl (p.y * scale)) (F32.fl ((Int.tdiv height 2 : Int) : ℚ))
    norm_num at hb1 hhalf this ⊢
    linarith
  obtain ⟨hop3, hb3⟩ := F32.op_of_abs_le _ 28 (by norm_num) (by norm_num) h3
  have htr := (Engine3D.toInt_truncates
    (F32.fl (F32.fl (p.y * scale) + F32.fl ((Int.tdiv height 2 : Int) : ℚ)))).1
  have hint : |((Engine3D.toInt
      (F32.fl (F32.fl (p.y * scale) + F32.fl ((Int.tdiv height 2 : Int) : ℚ))) :
        Int) : ℚ)| ≤ 268435456 := by
    norm_num at hb3
    linarith
  have hint' : |Engine3D.toInt
      (F32.fl (F32.fl (p.y * scale) + F32.fl ((Int.tdiv height 2 : Int) : ℚ)))|
        ≤ 268435456 := by
    exact_mod_cast hint
  rw [abs_le] at hint'
  have hsy : F32.screenY height p = F32.toInt
      (F32.fl (F32.fl (p.y * scale) + F32.fl ((Int.tdiv height 2 : Int) : ℚ))) := by
    simp only [F32.screenY, F32.coordY, hs, Option.bind_eq_bind, Option.some_bind, hop1,
      hop3]
  refine ⟨Engine3D.toInt
    (F32.fl (F32.fl (p.y * scale) + F32.fl ((Int.tdiv height 2 : Int) : ℚ))), ?_⟩
  rw [hsy]
  unfold F32.toInt
  rw [if_pos ⟨by omega, by omega⟩]

/-- Counterexample for C9: for the binary32 point `(0.4f, 0, 0)` on an 80-column display
the coordinate is `40.8`; `project` computes column `40`, whereas rounding to the nearest
integer gives `41`. -/
theorem project_binary32_not_rounded :
    F32.fl (13421773 / 33554432) = 13421773 / 33554432 ∧
    (0 : ℚ) < (⟨13421773 / 33554432, 0, 0⟩ : Vector3D ℚ).z + 100 ∧
    F32.screenX 80 ⟨13421773 / 33554432, 0, 0⟩ = some 40 ∧
    round ((13421773 / 33554432 : ℚ) * (100 / (0 + 100)) * 2 + 80 / 2) = 41 := by
  refine ⟨?_, by norm_num, F32.screenX_04, ?_⟩
  · rw [F32.fl_eq _ (-2) 13421773 (by norm_num) (by norm_num [abs_of_pos])
      (by norm_num [abs_of_pos]) (by norm_num) (by norm_num)]
    norm_num
  · rw [round_eq, Int.floor_eq_iff]
    norm_num

/-- Claim C9 (amended): for `p.z + 100 > 0`, the screen coordinates computed by `project`
are the binary32 values of `p.x * scale * 2 + width / 2` and `p.y * scale + height / 2`
(with `scale = 100 / (p.z + 100)`, every operation rounded to binary32, and the integer
halves of `width` and `height`) truncated toward zero; they are defined for inputs in
range. -/
theorem project_binary32_truncates (width height : Int) (p : Vector3D ℚ)
    (_hz : 0 < p.z + 100) :
    (∀ x : Int, F32.screenX width p = some x →
      ∃ v, F32.coordX width p = some v ∧ |(x : ℚ)| ≤ |v| ∧ |v - (x : ℚ)| < 1) ∧
    (∀ y : Int, F32.screenY height p = some y →
      ∃ v, F32.coordY height p = some v ∧ |(y : ℚ)| ≤ |v| ∧ |v - (y : ℚ)| < 1) ∧
    (1 ≤ p.z + 100 → p.z + 100 ≤ 2 ^ 20 → |p.x| ≤ 2 ^ 20 → |p.y| ≤ 2 ^ 20 →
      |((Int.tdiv width 2 : Int) : ℚ)| ≤ 2 ^ 20 → |((Int.tdiv height 2 : Int) : ℚ)| ≤ 2 ^ 20 →
      (∃ x, F32.screenX width p = some x) ∧ ∃ y, F32.screenY height p = some y) ∧
    (∀ q : Point2D ℚ, F32.project width height p = some q → q.x ≠ -1 →
      F32.screenX width p = some q.x ∧ F32.screenY height p = some q.y) := by
  refine ⟨?_, ?_, ?_, ?_⟩
  rotate_left 3
  · intro q hq hne
    unfold F32.project at hq
    simp only [Option.bind_eq_bind, Option.bind_eq_some] at hq
    obtain ⟨x, hx, y, hy, depth, _, hq⟩ := hq
    split_ifs at hq with hin
    · cases hq
      exact ⟨hx, hy⟩
    · cases hq
      exact absurd rfl hne
  · intro x hx
    unfold F32.screenX at hx
    obtain ⟨v, hv, hcast⟩ := Option.bind_eq_some.mp hx
    exact ⟨v, hv, F32.toInt_some_truncates v x hcast⟩
  · intro y hy
    unfold F32.screenY at hy
    obtain ⟨v, hv, hcast⟩ := Option.bind_eq_some.mp hy
    exact ⟨v, hv, F32.toInt_some_truncates v y hcast⟩
  · intro hz1 hz2 hx hy hw hh
    exact ⟨F32.screenX_defined width p hz1 hz2 hx hw,
      F32.screenY_defined height p hz1 hz2 hy hh⟩

/-- Witness for C9 (amended) at `p.x = 0.49999997f` on an 80-column display: the exact
coordinate `40.99999994` is below `41`, its binary32 value is `41`, and the computed
column `41` is the truncation of that value. -/
theorem project_binary32_truncates_witness :
    (0 : ℚ) < (⟨16777215 / 33554432, 0, 0⟩ : Vector3D ℚ).z + 100 ∧
    F32.screenX 80 ⟨16777215 / 33554432, 0, 0⟩ = some 41 ∧
    (16777215 / 33554432 : ℚ) * (100 / (0 + 100)) * 2 + 80 / 2 < 41 ∧
    (∃ v, F32.coordX 80 ⟨16777215 / 33554432, 0, 0⟩ = some v ∧
      |((41 : Int) : ℚ)| ≤ |v| ∧ |v - ((41 : Int) : ℚ)| < 1) :=
  ⟨by norm_num, F32.screenX_below_half.2, by norm_num,
    (project_binary32_truncates 80 24 ⟨16777215 / 33554432, 0, 0⟩ (by norm_num)).1 41
      F32.screenX_below_half.2⟩

end Binary32Projection

end Engine3D
